import Mathlib

/-!
# Verification of the drone_logs parsing and aggregation pipeline

A shallow embedding of `src/logs_parser.py` and `src/dashboard.py`.

The line parser embeds the `re.VERBOSE` regular expression `pattern` of
`logs_parser.py` (lines 15-27).  In VERBOSE mode unescaped whitespace inside
the pattern is ignored, so the effective pattern is

  `^\s*.*?-\s+Iter:\s+(\d+)\s*/\s*(\d+)\s+([A-Z][0-9]-[A-Z][0-9])\s+-\s+`
  `(?:Rand|Pred)\s+Eps:\s+F\s+lr:\s+F\s+Ret\s*=\s*F\s+Last\s+Crash\s*=\s*(\d+)`
  `\s+t=F\s+SF\s*=\s*F\s+Seen=\s*([01])\s+Reward:\s*F`

with `F = ([+-]?\d+(?:\.\d+)?)`.  Because every token boundary in the tail is a
mandatory literal or whitespace whose first expected character cannot extend
the preceding greedy token, the tail is deterministic, and the leading
`^\s*.*?` (lazy) amounts to scanning for the first `-` at which the tail
matches, where the characters skipped over may include `\n` only while
everything before is whitespace (`.` does not match `\n`, `\s*` does).
-/

namespace DroneLogs

/-! ## Character classes (ASCII fragment of Python's `\s`, `\d`, `[A-Z]`) -/

def isWS (c : Char) : Bool :=
  c = ' ' || c = '\t' || c = '\n' || c = '\r' || c = '\x0b' || c = '\x0c'

def isDigit (c : Char) : Bool := '0' ≤ c && c ≤ '9'

def isUpper (c : Char) : Bool := 'A' ≤ c && c ≤ 'Z'

/-! ## Token parsers for the deterministic tail of the pattern -/

/-- `\s+` : at least one whitespace character, consumed greedily. -/
def ws1 : List Char → Option (List Char)
  | c :: rest => if isWS c then some (rest.dropWhile isWS) else none
  | [] => none

/-- `\s*` : any number of whitespace characters, consumed greedily. -/
def ws0 (cs : List Char) : List Char := cs.dropWhile isWS

/-- A literal token of the pattern. -/
def lit : List Char → List Char → Option (List Char)
  | [], cs => some cs
  | _ :: _, [] => none
  | l :: ls, c :: cs => if c = l then lit ls cs else none

/-- `(\d+)` : a captured non-empty digit run, consumed greedily. -/
def digits1 (cs : List Char) : Option (List Char × List Char) :=
  let ds := cs.takeWhile isDigit
  if ds.isEmpty then none else some (ds, cs.dropWhile isDigit)

/-- `[+-]?` : the optional sign, split off the front. -/
def signSplit : List Char → List Char × List Char
  | c :: rest => if c = '+' || c = '-' then ([c], rest) else ([], c :: rest)
  | [] => ([], [])

/-- `([+-]?\d+(?:\.\d+)?)` : optional sign, digit run, optional fraction,
all consumed greedily (the fraction is taken only when a digit follows the
dot, exactly as the regex backtracks the optional group). -/
def signedDec (cs : List Char) : Option (List Char × List Char) :=
  match digits1 (signSplit cs).2 with
  | none => none
  | some (ds, cs2) =>
    match cs2 with
    | c :: cs3 =>
      if c = '.' then
        match digits1 cs3 with
        | none => some ((signSplit cs).1 ++ ds, cs2)
        | some (fs, cs4) => some ((signSplit cs).1 ++ ds ++ '.' :: fs, cs4)
      else some ((signSplit cs).1 ++ ds, cs2)
    | [] => some ((signSplit cs).1 ++ ds, cs2)

/-- `([A-Z][0-9]-[A-Z][0-9])` : the Decision group. -/
def decisionTok : List Char → Option (List Char × List Char)
  | a :: b :: c :: d :: e :: rest =>
    if isUpper a && isDigit b && c = '-' && isUpper d && isDigit e then
      some ([a, b, c, d, e], rest)
    else none
  | _ => none

def litIter : List Char := ['I', 't', 'e', 'r', ':']
def litRand : List Char := ['R', 'a', 'n', 'd']
def litPred : List Char := ['P', 'r', 'e', 'd']
def litEpsK : List Char := ['E', 'p', 's', ':']
def litLrK : List Char := ['l', 'r', ':']
def litRetK : List Char := ['R', 'e', 't']
def litLastK : List Char := ['L', 'a', 's', 't']
def litCrashK : List Char := ['C', 'r', 'a', 's', 'h']
def litTK : List Char := ['t', '=']
def litSFK : List Char := ['S', 'F']
def litSeenK : List Char := ['S', 'e', 'e', 'n', '=']
def litRewardK : List Char := ['R', 'e', 'w', 'a', 'r', 'd', ':']

/-- `(?:Rand|Pred)` : ordered alternative, not captured. -/
def randPred (cs : List Char) : Option (List Char) :=
  match lit litRand cs with
  | some rest => some rest
  | none => lit litPred cs

/-- `([01])` : the Seen group. -/
def seenTok : List Char → Option (List Char × List Char)
  | c :: rest => if c = '0' || c = '1' then some ([c], rest) else none
  | [] => none

/-- The eleven capture groups of `pattern`, in order. -/
structure Groups where
  step : List Char
  episode : List Char
  decision : List Char
  eps : List Char
  lr : List Char
  ret : List Char
  lastCrash : List Char
  t : List Char
  sf : List Char
  seen : List Char
  reward : List Char
deriving DecidableEq

/-- `\s+Iter:\s+(\d+)\s*/\s*(\d+)\s+` : the part of the tail up to and
including the whitespace after the Episode group; yields (step, episode, rest). -/
def tmIter (cs : List Char) : Option (List Char × List Char × List Char) := do
  let cs ← ws1 cs
  let cs ← lit litIter cs
  let cs ← ws1 cs
  let (step, cs) ← digits1 cs
  let cs ← lit ['/'] (ws0 cs)
  let (episode, cs) ← digits1 (ws0 cs)
  let cs ← ws1 cs
  pure (step, episode, cs)

/-- `([A-Z][0-9]-[A-Z][0-9])\s+-\s+(?:Rand|Pred)\s+` : Decision group, the
lone dash and the non-captured Rand/Pred alternative. -/
def tmDecision (cs : List Char) : Option (List Char × List Char) := do
  let (decision, cs) ← decisionTok cs
  let cs ← ws1 cs
  let cs ← lit ['-'] cs
  let cs ← ws1 cs
  let cs ← randPred cs
  let cs ← ws1 cs
  pure (decision, cs)

/-- `key\s+F` : «Eps:\s+F» and «lr:\s+F». -/
def keyNum (key : List Char) (cs : List Char) : Option (List Char × List Char) := do
  let cs ← lit key cs
  let cs ← ws1 cs
  signedDec cs

/-- `key\s*=\s*F` : «Ret\s*=\s*F» and «SF\s*=\s*F». -/
def keyEqNum (key : List Char) (cs : List Char) : Option (List Char × List Char) := do
  let cs ← lit key cs
  let cs ← lit ['='] (ws0 cs)
  signedDec (ws0 cs)

/-- `Crash\s*=\s*(\d+)` : the Last Crash group after the `Last` keyword. -/
def keyEqDigits (key : List Char) (cs : List Char) : Option (List Char × List Char) := do
  let cs ← lit key cs
  let cs ← lit ['='] (ws0 cs)
  digits1 (ws0 cs)

/-- `Seen=\s*([01])`. -/
def keySeen (cs : List Char) : Option (List Char × List Char) := do
  let cs ← lit litSeenK cs
  seenTok (ws0 cs)

/-- `Reward:\s*F`. -/
def keyReward (cs : List Char) : Option (List Char × List Char) := do
  let cs ← lit litRewardK cs
  signedDec (ws0 cs)

/-- Front of the tail, through `Ret\s*=\s*F\s+`: yields
((step, episode, decision, eps, lr, ret), rest). -/
def tmFront (cs : List Char) :
    Option ((List Char × List Char × List Char × List Char × List Char × List Char) ×
      List Char) := do
  let (step, episode, cs) ← tmIter cs
  let (decision, cs) ← tmDecision cs
  let (eps, cs) ← keyNum litEpsK cs
  let cs ← ws1 cs
  let (lr, cs) ← keyNum litLrK cs
  let cs ← ws1 cs
  let (ret, cs) ← keyEqNum litRetK cs
  let cs ← ws1 cs
  pure ((step, episode, decision, eps, lr, ret), cs)

/-- Back of the tail, `Last\s+Crash\s*=\s*(\d+)\s+t=F\s+SF\s*=\s*F`
`\s+Seen=\s*([01])\s+Reward:\s*F`: yields (lastCrash, t, sf, seen, reward). -/
def tmBack (cs : List Char) :
    Option (List Char × List Char × List Char × List Char × List Char) := do
  let cs ← lit litLastK cs
  let cs ← ws1 cs
  let (lastCrash, cs) ← keyEqDigits litCrashK cs
  let cs ← ws1 cs
  let cs ← lit litTK cs
  let (tv, cs) ← signedDec cs
  let cs ← ws1 cs
  let (sf, cs) ← keyEqNum litSFK cs
  let cs ← ws1 cs
  let (seen, cs) ← keySeen cs
  let cs ← ws1 cs
  let (reward, _) ← keyReward cs
  pure (lastCrash, tv, sf, seen, reward)

/-- The tail of the pattern, applied right after the `-` that `.*?` stops at:
`\s+Iter:\s+(\d+)\s*/\s*(\d+)\s+([A-Z][0-9]-[A-Z][0-9])\s+-\s+(?:Rand|Pred)`
`\s+Eps:\s+F\s+lr:\s+F\s+Ret\s*=\s*F\s+Last\s+Crash\s*=\s*(\d+)\s+t=F`
`\s+SF\s*=\s*F\s+Seen=\s*([01])\s+Reward:\s*F` (nothing after the last group:
the match need not consume the whole line). -/
def tailMatch (cs : List Char) : Option Groups := do
  let ((step, episode, decision, eps, lr, ret), cs) ← tmFront cs
  let (lastCrash, tv, sf, seen, reward) ← tmBack cs
  pure (Groups.mk step episode decision eps lr ret lastCrash tv sf seen reward)

/-- `^\s*.*?-` followed by the tail: scan for the first `-` whose tail
matches.  `b` records whether a non-whitespace character has been skipped;
once it has, a `\n` can no longer be part of the skipped prefix (`\s*` can
absorb `\n` only at the very start, `.` never matches `\n`). -/
def scanDash : List Char → Bool → Option Groups
  | [], _ => none
  | c :: rest, b =>
    if c = '-' then
      match tailMatch rest with
      | some g => some g
      | none => scanDash rest true
    else if c = '\n' && b then none
    else scanDash rest (b || !isWS c)

/-- One parsed log line, fields named after `HEADER` in `logs_parser.py`
(lines 29-32): the eleven regex groups as matched, with `Found`
(`row[9]`) converted from the digit `'0'`/`'1'` to a boolean
(`logs_parser.py` line 66). -/
structure LogRecord where
  Step : String
  Episode : String
  Decision : String
  Eps : String
  lr : String
  Ret : String
  LastCrash : String
  t : String
  SF : String
  Found : Bool
  Reward : String
deriving DecidableEq

/-- `row = list(m.groups()); row[9] = bool(int(row[9]))`
(`logs_parser.py` lines 64-66). -/
def buildRecord (g : Groups) : LogRecord where
  Step := String.mk g.step
  Episode := String.mk g.episode
  Decision := String.mk g.decision
  Eps := String.mk g.eps
  lr := String.mk g.lr
  Ret := String.mk g.ret
  LastCrash := String.mk g.lastCrash
  t := String.mk g.t
  SF := String.mk g.sf
  Found := g.seen == ['1']
  Reward := String.mk g.reward

/-- `m = pattern.match(line); if not m: continue; row = list(m.groups())`
(`logs_parser.py` lines 61-66), as a total function from the line text to an
optional record. -/
def extract (line : String) : Option LogRecord :=
  (scanDash line.toList false).map buildRecord

/-! ## Numeric interpretation of matched tokens

`logs_parser.py` applies `float(row[5])` to the Ret group (line 71) and
`int(kv[0])` to the Episode key (line 81).  The matched tokens are exact
decimal strings of the shapes `[+-]?\d+(\.\d+)?` and `\d+`, so their numeric
values are modelled exactly, as rationals and naturals. -/

/-- Value of a digit run, most significant first. -/
def natOfDigits (ds : List Char) : ℕ :=
  ds.foldl (fun n c => 10 * n + (c.toNat - 48)) 0

/-- Exact value of a decimal token `[+-]?\d+(\.\d+)?` (without its sign). -/
def decCore (cs : List Char) : ℚ :=
  let ds := cs.takeWhile isDigit
  let rest := cs.dropWhile isDigit
  let fs := match rest with
    | '.' :: r => r.takeWhile isDigit
    | _ => []
  (natOfDigits ds : ℚ) + (natOfDigits fs : ℚ) / (10 : ℚ) ^ fs.length

/-- `float(...)` on a matched decimal token, modelled exactly. -/
def decToRat (s : String) : ℚ :=
  match s.toList with
  | '-' :: r => - decCore r
  | '+' :: r => decCore r
  | r => decCore r

/-- `ret_val = float(row[5])` (`logs_parser.py` line 71). -/
def retQ (r : LogRecord) : ℚ := decToRat r.Ret

/-- `int(kv[0])` on the digit-string Episode key (`logs_parser.py` line 81). -/
def epNat (s : String) : ℕ := natOfDigits s.toList

/-! ## The best-per-episode reducer

`best_by_episode` is a Python dict mapping the Episode string to a pair
`(ret_val, row)` (`logs_parser.py` lines 49, 70-74).  A dict preserves
insertion order and assignment to an existing key keeps the key's position,
so the state is an association list updated in place. -/

/-- Association-list lookup (first entry whose key matches). -/
def alookup {α β : Type} [DecidableEq α] (k : α) : List (α × β) → Option β
  | [] => none
  | (k', v) :: m => if k' = k then some v else alookup k m

/-- Overwrite the value stored at an existing key, keeping its position
(Python dict assignment when the key is present). -/
def replaceEp {α β : Type} [DecidableEq α] (k : α) (v : β) :
    List (α × β) → List (α × β)
  | [] => []
  | (k', w) :: m => if k' = k then (k', v) :: m else (k', w) :: replaceEp k v m

/-- The reducer state: Episode → (Return value, record), in insertion order. -/
abbrev BestState := List (String × ℚ × LogRecord)

/-- One update of the reducer:
`if (ep not in best_by_episode) or (ret_val > best_by_episode[ep][0]):`
`    best_by_episode[ep] = (ret_val, row)` (`logs_parser.py` lines 70-74). -/
def updateBest (st : BestState) (r : LogRecord) : BestState :=
  match alookup r.Episode st with
  | none => st ++ [(r.Episode, (retQ r, r))]
  | some (v, _) => if retQ r > v then replaceEp r.Episode (retQ r, r) st else st

/-- The reducer state after a stream of records. -/
def runUpdates (rs : List LogRecord) : BestState :=
  rs.foldl updateBest []

/-- `sorted(best_by_episode.items(), key=lambda kv: int(kv[0]))`
(`logs_parser.py` line 81): a stable sort of the entries by the integer
value of the Episode key, emitting the stored rows. -/
def finalizeBest (st : BestState) : List LogRecord :=
  (st.mergeSort (fun a b => decide (epNat a.1 ≤ epNat b.1))).map (fun e => e.2.2)

/-! ## The per-run log pass (`parse_one_run`, lines 52-82)

A run's log input is the list of its `*.txt` files, each a list of lines.
For every file, for every line, the extractor runs; matched records are
appended to the full table and fed to the reducer. -/

/-- The full-record table: every matched line of every file, in order
(`writer_all.writerow(row)`, line 67). -/
def extractAll (files : List (List String)) : List LogRecord :=
  (files.map (fun lines => lines.filterMap extract)).flatten

/-- The two tables the log pass of `parse_one_run` produces (data rows of
`trainlog.csv` and `best_results.csv`). -/
def processLogs (files : List (List String)) : List LogRecord × List LogRecord :=
  (extractAll files, finalizeBest (runUpdates (extractAll files)))

/-- `(total, parsed)` line counters of `parse_one_run` (lines 50, 60, 68). -/
def parseReport (files : List (List String)) : ℕ × ℕ :=
  ((files.map List.length).sum, (extractAll files).length)

/-! ## The config pass (`parse_one_run`, lines 87-115)

Each `.cfg` file is read by a fresh `ConfigParser` with `optionxform = str`
(case-sensitive keys).  Reading an unparsable file raises, so a parsed file
is either an error or the list of its `(section, key, value)` items in file
order.  Parsed items are merged into the dict `config_params` keyed by
`f"{section}.{key}"`, later assignments overwriting earlier ones. -/

/-- `param_name = f"{section}.{key}"` (line 101). -/
def qualify (e : String × String × String) : String × String :=
  (e.1 ++ "." ++ e.2.1, e.2.2)

/-- Python dict assignment `config_params[param_name] = val`: overwrite in
place when the key exists, append otherwise. -/
def setParam (k v : String) : List (String × String) → List (String × String)
  | [] => [(k, v)]
  | (k', v') :: m => if k' = k then (k', v) :: m else (k', v') :: setParam k v m

/-- `config_params` after all `.cfg` files are merged (lines 91-102). -/
def harvestConfig (files : List (List (String × String × String))) :
    List (String × String) :=
  files.foldl
    (fun m file => file.foldl (fun m e => setParam (qualify e).1 (qualify e).2 m) m) []

/-- `sorted(config_params.items())` (line 111): the keys are pairwise
distinct, so sorting the items lexicographically is sorting by parameter
name. -/
def configTable (files : List (List (String × String × String))) :
    List (String × String) :=
  (harvestConfig files).mergeSort (fun a b => decide (a.1 ≤ b.1))

/-! ## A whole run and a batch of runs (`parse_one_run` + `main`)

In `parse_one_run` the log pass (lines 52-85) completes — both CSV files
are written and closed — before the config pass starts (lines 87-115); an
ini parse error raised by `parser.read` therefore escapes `parse_one_run`
after the log tables exist but before `config.csv` is written.  `main`
(lines 129-134) calls `parse_one_run` for every run directory in a plain
loop with no exception handling, so a raised error stops the batch. -/

/-- A run's input: its log files and its config files, a config file being
either its parsed `(section, key, value)` items or an ini parse error. -/
structure RunInput where
  logFiles : List (List String)
  cfgFiles : List (Except Unit (List (String × String × String)))

/-- Read the `.cfg` files in order; the first unparsable one raises. -/
def readConfigs :
    List (Except Unit (List (String × String × String))) →
      Except Unit (List (List (String × String × String)))
  | [] => .ok []
  | .error e :: _ => .error e
  | .ok items :: fs =>
    match readConfigs fs with
    | .error e => .error e
    | .ok rest => .ok (items :: rest)

/-- What a run leaves in its output directory: the two log tables, and the
config table when `config_params` ended up non-empty (`config.csv` is only
written then, lines 104-113). -/
structure RunOutput where
  trainlog : List LogRecord
  best : List LogRecord
  config : Option (List (String × String))
deriving DecidableEq

/-- One `parse_one_run` call: the log tables always get written; the config
pass then either delivers the (possibly absent) config table or raises. -/
def parseOneRun (ri : RunInput) : RunOutput × Except Unit Unit :=
  let logs := processLogs ri.logFiles
  match readConfigs ri.cfgFiles with
  | .error e =>
    ({ trainlog := logs.1, best := logs.2, config := none }, .error e)
  | .ok files =>
    ({ trainlog := logs.1, best := logs.2,
       config := if (harvestConfig files).isEmpty then none
         else some (configTable files) }, .ok ())

/-- `main`'s loop over the run directories: each run is processed in turn;
an exception escaping `parse_one_run` aborts the loop, so the runs after it
are never processed (their outputs do not exist). -/
def runBatch : List RunInput → List RunOutput
  | [] => []
  | ri :: ris =>
    match parseOneRun ri with
    | (out, .ok _) => out :: runBatch ris
    | (out, .error _) => [out]

/-! ## Association-list lemmas -/

theorem alookup_append {α β : Type} [DecidableEq α] (k : α) (m₁ m₂ : List (α × β)) :
    alookup k (m₁ ++ m₂) =
      match alookup k m₁ with
      | some v => some v
      | none => alookup k m₂ := by
  induction m₁ with
  | nil => simp [alookup]
  | cons e m ih =>
    obtain ⟨k', v⟩ := e
    by_cases h : k' = k <;> simp [alookup, h, ih]

theorem alookup_replaceEp_self {α β : Type} [DecidableEq α] (k : α) (v : β)
    (m : List (α × β)) (h : (alookup k m).isSome) :
    alookup k (replaceEp k v m) = some v := by
  induction m with
  | nil => simp [alookup] at h
  | cons e m ih =>
    obtain ⟨k', w⟩ := e
    by_cases hk : k' = k
    · simp [alookup, replaceEp, hk]
    · simp [alookup, replaceEp, hk] at h ⊢
      exact ih h

theorem alookup_replaceEp_ne {α β : Type} [DecidableEq α] (k k' : α) (v : β)
    (m : List (α × β)) (h : k' ≠ k) :
    alookup k' (replaceEp k v m) = alookup k' m := by
  induction m with
  | nil => simp [replaceEp]
  | cons e m ih =>
    obtain ⟨k₀, w⟩ := e
    by_cases hk : k₀ = k
    · subst hk
      have hne : ¬ k₀ = k' := fun hh => h hh.symm
      simp [alookup, replaceEp, hne]
    · by_cases hk' : k₀ = k'
      · subst hk'
        simp [alookup, replaceEp, hk]
      · simp [alookup, replaceEp, hk, hk', ih]

theorem keys_replaceEp {α β : Type} [DecidableEq α] (k : α) (v : β) (m : List (α × β)) :
    (replaceEp k v m).map Prod.fst = m.map Prod.fst := by
  induction m with
  | nil => simp [replaceEp]
  | cons e m ih =>
    obtain ⟨k₀, w⟩ := e
    by_cases hk : k₀ = k <;> simp [replaceEp, hk, ih]

theorem mem_replaceEp {α β : Type} [DecidableEq α] {k : α} {v : β} {m : List (α × β)}
    {e : α × β} (h : e ∈ replaceEp k v m) : e ∈ m ∨ e = (k, v) := by
  induction m with
  | nil => simp [replaceEp] at h
  | cons e₀ m ih =>
    obtain ⟨k₀, w⟩ := e₀
    by_cases hk : k₀ = k
    · subst hk
      rw [replaceEp, if_pos rfl] at h
      rw [List.mem_cons] at h ⊢
      rcases h with h | h
      · exact Or.inr h
      · exact Or.inl (Or.inr h)
    · rw [replaceEp, if_neg hk] at h
      rw [List.mem_cons] at h ⊢
      rcases h with h | h
      · exact Or.inl (Or.inl h)
      · rcases ih h with h | h
        · exact Or.inl (Or.inr h)
        · exact Or.inr h

theorem alookup_isSome_iff {α β : Type} [DecidableEq α] (k : α) (m : List (α × β)) :
    (alookup k m).isSome ↔ k ∈ m.map Prod.fst := by
  induction m with
  | nil => simp [alookup]
  | cons e m ih =>
    obtain ⟨k', v⟩ := e
    by_cases h : k' = k
    · subst h
      simp [alookup]
    · have hne : ¬ k = k' := fun hh => h hh.symm
      simp [alookup, h, ih, hne]

/-! ## Reducer lemmas -/

/-- The per-key effect of one update, as the spec's rule states it: a missing
key is filled, a strictly greater Return replaces, anything else is kept. -/
def stepOne (acc : Option (ℚ × LogRecord)) (r : LogRecord) : Option (ℚ × LogRecord) :=
  match acc with
  | none => some (retQ r, r)
  | some (v, b) => if retQ r > v then some (retQ r, r) else some (v, b)

theorem alookup_updateBest (st : BestState) (r : LogRecord) (ep : String) :
    alookup ep (updateBest st r) =
      if ep = r.Episode then stepOne (alookup ep st) r else alookup ep st := by
  unfold updateBest
  cases h : alookup r.Episode st with
  | none =>
    rw [alookup_append]
    by_cases hep : ep = r.Episode
    · subst hep
      simp [h, alookup, stepOne]
    · have hep' : ¬ r.Episode = ep := fun hh => hep hh.symm
      simp only [alookup, hep', if_neg hep']
      cases alookup ep st <;> simp [hep]
  | some vb =>
    obtain ⟨v, b⟩ := vb
    by_cases hgt : retQ r > v
    · simp only [hgt, if_true]
      by_cases hep : ep = r.Episode
      · subst hep
        rw [alookup_replaceEp_self _ _ _ (by simp [h])]
        simp [h, stepOne, hgt]
      · rw [alookup_replaceEp_ne _ _ _ _ hep]
        simp [hep]
    · simp only [hgt, if_false]
      by_cases hep : ep = r.Episode
      · subst hep
        simp [h, stepOne, hgt]
      · simp [hep]

theorem alookup_foldl_updateBest (rs : List LogRecord) (st : BestState) (ep : String) :
    alookup ep (rs.foldl updateBest st) =
      (rs.filter (fun x => x.Episode == ep)).foldl stepOne (alookup ep st) := by
  induction rs generalizing st with
  | nil => simp
  | cons r rs ih =>
    rw [List.foldl_cons, ih, alookup_updateBest]
    by_cases h : r.Episode = ep
    · simp [List.filter_cons, h]
    · have h' : ¬ ep = r.Episode := fun hh => h hh.symm
      simp [List.filter_cons, h, h']

/-- `domBy m x`: the Return of `x` is at least the Return of every record
of `m` (so `x` attains the maximum over `m`). -/
def domBy (m : List LogRecord) (x : LogRecord) : Bool :=
  m.all fun y => decide (retQ y ≤ retQ x)

/-- The first record of a stream whose Return is greatest: what the spec's
tie-break rule says the reducer keeps for a key. -/
def firstMaxRet (l : List LogRecord) : Option LogRecord :=
  l.find? (domBy l)

theorem find?_congr {α : Type} {p q : α → Bool} :
    ∀ {l : List α}, (∀ x ∈ l, (p x = true ↔ q x = true)) → l.find? p = l.find? q := by
  intro l
  induction l with
  | nil => simp
  | cons a l ih =>
    intro h
    have ha := h a (List.mem_cons_self a l)
    cases hp : p a with
    | true =>
      rw [List.find?_cons_of_pos _ hp, List.find?_cons_of_pos _ (ha.mp hp)]
    | false =>
      have hq : ¬ q a = true := by
        intro hqa
        rw [ha.mpr hqa] at hp
        cases hp
      rw [List.find?_cons_of_neg _ (by simp [hp]), List.find?_cons_of_neg _ hq]
      exact ih fun x hx => h x (List.mem_cons_of_mem a hx)

theorem domBy_iff (m : List LogRecord) (x : LogRecord) :
    domBy m x = true ↔ ∀ y ∈ m, retQ y ≤ retQ x := by
  simp [domBy, List.all_eq_true]

theorem foldl_stepOne_some (l : List LogRecord) :
    ∀ b : LogRecord, l.foldl stepOne (some (retQ b, b)) =
      ((b :: l).find? (domBy (b :: l))).map (fun x => (retQ x, x)) := by
  induction l with
  | nil =>
    intro b
    have hb : domBy [b] b = true := (domBy_iff _ _).mpr (by simp)
    rw [List.find?_cons_of_pos _ hb]
    rfl
  | cons c l ih =>
    intro b
    rw [List.foldl_cons]
    show l.foldl stepOne (stepOne (some (retQ b, b)) c) = _
    by_cases hbc : retQ c > retQ b
    · have hstep : stepOne (some (retQ b, b)) c = some (retQ c, c) := by
        simp [stepOne, hbc]
      rw [hstep, ih c]
      have hb : ¬ domBy (b :: c :: l) b = true := by
        intro hall
        exact absurd ((domBy_iff _ _).mp hall c (by simp)) (not_le.mpr hbc)
      rw [List.find?_cons_of_neg _ hb]
      have hcongr : (c :: l).find? (domBy (b :: c :: l)) = (c :: l).find? (domBy (c :: l)) := by
        apply find?_congr
        intro x hx
        rw [domBy_iff, domBy_iff]
        constructor
        · intro hh y hy
          exact hh y (List.mem_cons_of_mem b hy)
        · intro hh y hy
          rcases List.mem_cons.mp hy with hy | hy
          · subst hy
            exact le_trans (le_of_lt hbc) (hh c (List.mem_cons_self c l))
          · exact hh y hy
      rw [hcongr]
    · have hcb : retQ c ≤ retQ b := not_lt.mp hbc
      have hstep : stepOne (some (retQ b, b)) c = some (retQ b, b) := by
        simp [stepOne, hbc]
      rw [hstep, ih b]
      have hhead : domBy (b :: c :: l) b = domBy (b :: l) b := by
        rw [domBy, domBy, List.all_cons, List.all_cons, List.all_cons,
          decide_eq_true hcb]
        simp
      cases hb : domBy (b :: l) b with
      | true =>
        rw [List.find?_cons_of_pos _ (hhead.trans hb), List.find?_cons_of_pos _ hb]
      | false =>
        rw [List.find?_cons_of_neg _ (by rw [hb]; simp),
          List.find?_cons_of_neg _ (by rw [hhead, hb]; simp)]
        have hc : ¬ domBy (b :: c :: l) c = true := by
          intro hall
          have hball := (domBy_iff _ _).mp hall
          have hgood : domBy (b :: l) b = true := by
            rw [domBy_iff]
            intro y hy
            rcases List.mem_cons.mp hy with hy | hy
            · subst hy
              exact le_refl _
            · exact le_trans (hball y (by simp [hy])) hcb
          rw [hgood] at hb
          cases hb
        rw [List.find?_cons_of_neg _ hc]
        congr 1
        apply find?_congr
        intro x hx
        rw [domBy_iff, domBy_iff]
        constructor
        · intro hh y hy
          rcases List.mem_cons.mp hy with hy | hy
          · rw [hy]
            exact hh b (List.mem_cons_self _ _)
          · rcases List.mem_cons.mp hy with hy | hy
            · rw [hy]
              exact le_trans hcb (hh b (List.mem_cons_self _ _))
            · exact hh y (List.mem_cons_of_mem b hy)
        · intro hh y hy
          rcases List.mem_cons.mp hy with hy | hy
          · rw [hy]
            exact hh b (List.mem_cons_self _ _)
          · exact hh y (List.mem_cons_of_mem b (List.mem_cons_of_mem c hy))

theorem foldl_stepOne_none (l : List LogRecord) :
    l.foldl stepOne none = (firstMaxRet l).map (fun x => (retQ x, x)) := by
  cases l with
  | nil => rfl
  | cons b l =>
    rw [List.foldl_cons]
    show l.foldl stepOne (stepOne none b) = _
    have : stepOne none b = some (retQ b, b) := rfl
    rw [this]
    exact foldl_stepOne_some l b

/-- C2.  For every sequence of updates and every Episode key: a single
`update` replaces the stored entry for a key exactly when the key is absent
or the incoming record's Return (`retQ`, the value of `float(row[5])`) is
strictly greater than the stored Return, and leaves every other key alone;
consequently, after any stream of updates the entry stored for a key is the
first-occurring record, among the stream's records with that Episode, whose
Return attains the maximum (so for Returns 5.0, 8.2, 8.2 on one episode the
first 8.2 wins). -/
theorem best_update_rule_and_first_max (st : BestState) (r : LogRecord)
    (ep : String) (rs : List LogRecord) :
    (alookup ep (updateBest st r) =
      if ep = r.Episode then
        match alookup ep st with
        | none => some (retQ r, r)
        | some (v, b) => if retQ r > v then some (retQ r, r) else some (v, b)
      else alookup ep st)
    ∧ alookup ep (runUpdates rs) =
        (firstMaxRet (rs.filter (fun x => x.Episode == ep))).map
          (fun b => (retQ b, b)) := by
  constructor
  · rw [alookup_updateBest]
    rfl
  · rw [runUpdates, alookup_foldl_updateBest]
    exact foldl_stepOne_none _

theorem keys_updateBest (st : BestState) (r : LogRecord) :
    (updateBest st r).map Prod.fst =
      if r.Episode ∈ st.map Prod.fst then st.map Prod.fst
      else st.map Prod.fst ++ [r.Episode] := by
  unfold updateBest
  cases h : alookup r.Episode st with
  | none =>
    have hmem : r.Episode ∉ st.map Prod.fst := by
      rw [← alookup_isSome_iff, h]
      simp
    simp [hmem]
  | some vb =>
    obtain ⟨v, b⟩ := vb
    have hmem : r.Episode ∈ st.map Prod.fst := by
      rw [← alookup_isSome_iff, h]
      rfl
    by_cases hgt : retQ r > v
    · simp [hgt, keys_replaceEp, hmem]
    · simp [hgt, hmem]

theorem keys_nodup_foldl (rs : List LogRecord) :
    ∀ st : BestState, (st.map Prod.fst).Nodup →
      ((rs.foldl updateBest st).map Prod.fst).Nodup := by
  induction rs with
  | nil => exact fun st h => h
  | cons r rs ih =>
    intro st h
    rw [List.foldl_cons]
    apply ih
    rw [keys_updateBest]
    by_cases hmem : r.Episode ∈ st.map Prod.fst
    · simp [hmem, h]
    · simp only [hmem, if_false]
      rw [List.nodup_append]
      exact ⟨h, List.nodup_singleton _, by simp [List.disjoint_singleton, hmem]⟩

theorem mem_keys_foldl (rs : List LogRecord) :
    ∀ (st : BestState) (ep : String),
      (ep ∈ (rs.foldl updateBest st).map Prod.fst ↔
        ep ∈ st.map Prod.fst ∨ ∃ r ∈ rs, r.Episode = ep) := by
  induction rs with
  | nil => simp
  | cons r rs ih =>
    intro st ep
    rw [List.foldl_cons, ih, keys_updateBest]
    by_cases hmem : r.Episode ∈ st.map Prod.fst
    · simp only [hmem, if_true, List.mem_cons]
      constructor
      · rintro (h | ⟨x, hx, he⟩)
        · exact Or.inl h
        · exact Or.inr ⟨x, Or.inr hx, he⟩
      · rintro (h | ⟨x, hx, he⟩)
        · exact Or.inl h
        · rcases hx with hx | hx
          · rw [hx] at he
            rw [← he]
            exact Or.inl hmem
          · exact Or.inr ⟨x, hx, he⟩
    · simp only [hmem, if_false, List.mem_append, List.mem_singleton, List.mem_cons]
      constructor
      · rintro ((h | h | h) | ⟨x, hx, he⟩)
        · exact Or.inl h
        · exact Or.inr ⟨r, Or.inl rfl, h.symm⟩
        · exact absurd h (List.not_mem_nil _)
        · exact Or.inr ⟨x, Or.inr hx, he⟩
      · rintro (h | ⟨x, hx | hx, he⟩)
        · exact Or.inl (Or.inl h)
        · rw [hx] at he
          exact Or.inl (Or.inr (Or.inl he.symm))
        · exact Or.inr ⟨x, hx, he⟩

theorem mem_updateBest {st : BestState} {r : LogRecord} {e : String × ℚ × LogRecord}
    (h : e ∈ updateBest st r) : e ∈ st ∨ e = (r.Episode, retQ r, r) := by
  cases hl : alookup r.Episode st with
  | none =>
    have hu : updateBest st r = st ++ [(r.Episode, retQ r, r)] := by
      unfold updateBest
      rw [hl]
    rw [hu] at h
    rcases List.mem_append.mp h with h | h
    · exact Or.inl h
    · exact Or.inr (List.mem_singleton.mp h)
  | some vb =>
    obtain ⟨v, b⟩ := vb
    have hu : updateBest st r =
        if retQ r > v then replaceEp r.Episode (retQ r, r) st else st := by
      unfold updateBest
      rw [hl]
    rw [hu] at h
    by_cases hgt : retQ r > v
    · rw [if_pos hgt] at h
      exact mem_replaceEp h
    · rw [if_neg hgt] at h
      exact Or.inl h

theorem mem_foldl_updateBest (rs : List LogRecord) :
    ∀ (st : BestState) (e : String × ℚ × LogRecord), e ∈ rs.foldl updateBest st →
      e ∈ st ∨ (e.2.1 = retQ e.2.2 ∧ e.2.2 ∈ rs ∧ e.2.2.Episode = e.1) := by
  induction rs with
  | nil => exact fun st e h => Or.inl h
  | cons r rs ih =>
    intro st e h
    rw [List.foldl_cons] at h
    rcases ih _ _ h with h' | ⟨h1, h2, h3⟩
    · rcases mem_updateBest h' with h'' | h''
      · exact Or.inl h''
      · rw [h'']
        exact Or.inr ⟨rfl, List.mem_cons_self r rs, rfl⟩
    · exact Or.inr ⟨h1, List.mem_cons_of_mem r h2, h3⟩

/-- C10.  Invariant of the reducer's state: every stored entry pairs an
Episode key with the exact rational value of the stored record's Return
field and with a record that was previously fed to `update` under that very
Episode key; and an update never removes a key from the state. -/
theorem reducer_state_invariant (rs : List LogRecord) (r' : LogRecord) :
    (∀ e ∈ runUpdates rs, e.2.1 = retQ e.2.2 ∧ e.2.2 ∈ rs ∧ e.2.2.Episode = e.1)
    ∧ (∀ ep ∈ (runUpdates rs).map Prod.fst,
        ep ∈ (updateBest (runUpdates rs) r').map Prod.fst) := by
  constructor
  · intro e he
    rcases mem_foldl_updateBest rs [] e he with h | h
    · cases h
    · exact h
  · intro ep hep
    rw [keys_updateBest]
    by_cases h : r'.Episode ∈ (runUpdates rs).map Prod.fst
    · rw [if_pos h]
      exact hep
    · rw [if_neg h]
      exact List.mem_append.mpr (Or.inl hep)

/-- Stored records carry their own key: for every entry of the state, the
stored record's Episode is the entry's key. -/
theorem runUpdates_episode_eq_key (rs : List LogRecord) :
    ∀ e ∈ runUpdates rs, e.2.2.Episode = e.1 := by
  intro e he
  rcases mem_foldl_updateBest rs [] e he with h | h
  · cases h
  · exact h.2.2

/-- C4.  `finalize` (the write-out of `best_results.csv`) emits the stored
records sorted ascending by the integer value of the Episode key, with
exactly one entry per distinct Episode key ever seen: the emitted Episode
keys are pairwise distinct and are exactly the Episodes of the streamed
records. -/
theorem finalize_sorted_and_unique (rs : List LogRecord) :
    List.Sorted (fun a b => epNat a.Episode ≤ epNat b.Episode)
      (finalizeBest (runUpdates rs))
    ∧ ((finalizeBest (runUpdates rs)).map LogRecord.Episode).Nodup
    ∧ ∀ ep, ep ∈ (finalizeBest (runUpdates rs)).map LogRecord.Episode ↔
        ∃ r ∈ rs, r.Episode = ep := by
  have hperm :
      ((runUpdates rs).mergeSort
        (fun a b => decide (epNat a.1 ≤ epNat b.1))).Perm (runUpdates rs) :=
    List.mergeSort_perm _ _
  have hkey : ∀ e ∈ (runUpdates rs).mergeSort
      (fun a b => decide (epNat a.1 ≤ epNat b.1)), e.2.2.Episode = e.1 :=
    fun e he => runUpdates_episode_eq_key rs e (hperm.mem_iff.mp he)
  have hmapeq : ((runUpdates rs).mergeSort
        (fun a b => decide (epNat a.1 ≤ epNat b.1))).map (fun e => e.2.2.Episode) =
      ((runUpdates rs).mergeSort
        (fun a b => decide (epNat a.1 ≤ epNat b.1))).map Prod.fst := by
    apply List.map_congr_left
    intro e he
    exact hkey e he
  have hfin : (finalizeBest (runUpdates rs)).map LogRecord.Episode =
      ((runUpdates rs).mergeSort
        (fun a b => decide (epNat a.1 ≤ epNat b.1))).map (fun e => e.2.2.Episode) := by
    rw [finalizeBest, List.map_map]
    rfl
  refine ⟨?_, ?_, ?_⟩
  · have htrans : ∀ a b c : String × ℚ × LogRecord,
        decide (epNat a.1 ≤ epNat b.1) = true →
        decide (epNat b.1 ≤ epNat c.1) = true →
        decide (epNat a.1 ≤ epNat c.1) = true := by
      intro a b c hab hbc
      simp only [decide_eq_true_eq] at hab hbc ⊢
      exact le_trans hab hbc
    have htotal : ∀ a b : String × ℚ × LogRecord,
        (decide (epNat a.1 ≤ epNat b.1) || decide (epNat b.1 ≤ epNat a.1)) = true := by
      intro a b
      simp only [Bool.or_eq_true, decide_eq_true_eq]
      exact Nat.le_total _ _
    have hpw := List.sorted_mergeSort htrans htotal (runUpdates rs)
    rw [finalizeBest]
    apply List.pairwise_map.mpr
    apply List.Pairwise.imp_of_mem ?_ hpw
    intro a b ha hb hab
    rw [decide_eq_true_eq] at hab
    rw [hkey a ha, hkey b hb]
    exact hab
  · rw [hfin, hmapeq]
    exact ((hperm.map Prod.fst).nodup_iff).mpr
      (keys_nodup_foldl rs [] (by simp))
  · intro ep
    rw [hfin, hmapeq, (hperm.map Prod.fst).mem_iff]
    have h := mem_keys_foldl rs [] ep
    rw [runUpdates]
    simpa using h

/-- C6.  A run whose input directory has no log files still completes: the
log pass produces an empty full-record table and an empty best table, and
no line counters advance. -/
theorem empty_run_empty_tables :
    processLogs [] = ([], []) ∧ parseReport [] = (0, 0) ∧
    ∀ cfgs : List (Except Unit (List (String × String × String))),
      (parseOneRun (RunInput.mk [] cfgs)).1.trainlog = [] ∧
      (parseOneRun (RunInput.mk [] cfgs)).1.best = [] := by
  have hlogs : processLogs ([] : List (List String)) = ([], []) := by
    unfold processLogs extractAll runUpdates finalizeBest
    simp
  refine ⟨hlogs, rfl, fun cfgs => ?_⟩
  unfold parseOneRun
  cases readConfigs cfgs with
  | error e =>
    refine ⟨?_, ?_⟩
    · show (processLogs ([] : List (List String))).1 = []
      rw [hlogs]
    · show (processLogs ([] : List (List String))).2 = []
      rw [hlogs]
  | ok files =>
    refine ⟨?_, ?_⟩
    · show (processLogs ([] : List (List String))).1 = []
      rw [hlogs]
    · show (processLogs ([] : List (List String))).2 = []
      rw [hlogs]


/-! ## The spec's example line (claim C5) -/

/-- The example input line of the spec, exactly as written there. -/
def exampleLine : String :=
  "... Iter: 100/3 A1-B2 - Rand Eps: 0.10 lr: 0.001 Ret = 5.0 Last Crash = 2 t=0.05 SF = 1.0 Seen=1 Reward: 50.0"

/-- The same line with a dash before «Iter:», which the pattern's
`.*?-\s+Iter:` prefix demands. -/
def exampleLineDashed : String :=
  "... - Iter: 100/3 A1-B2 - Rand Eps: 0.10 lr: 0.001 Ret = 5.0 Last Crash = 2 t=0.05 SF = 1.0 Seen=1 Reward: 50.0"

/-- C5 counterexample: the spec's example line contains no `-` followed by
whitespace and `Iter:`, so `pattern.match` fails and `extract` returns
`None` — the line does not parse to any record. -/
theorem example_line_rejected : extract exampleLine = none := rfl

/-- C5 as amended: with the dash before «Iter:» restored, the line parses to
exactly the record the spec's example states (`Found` booleanized from
`Seen=1`). -/
theorem example_line_dashed_parses :
    extract exampleLineDashed =
      some (LogRecord.mk "100" "3" "A1-B2" "0.10" "0.001" "5.0" "2"
        "0.05" "1.0" true "50.0") := rfl

/-! ## One run's config failure and the batch loop (claim C8) -/

/-- A run whose only config file is unparsable ini text. -/
def badCfgRun : RunInput where
  logFiles := [[exampleLineDashed]]
  cfgFiles := [Except.error ()]

/-- A run with nothing in it at all. -/
def okRun : RunInput where
  logFiles := []
  cfgFiles := []

/-- C8 counterexample: in a batch of two runs whose first run has an
unparsable config file, only one run output is produced — the second run is
never processed — although the second run on its own would produce one.
This refutes «other runs in a batch are unaffected by one run's fatal
error». -/
theorem config_error_aborts_batch_cex :
    (runBatch [badCfgRun, okRun]).length = 1 ∧ (runBatch [okRun]).length = 1 := by
  constructor
  · rfl
  · rfl

/-- C8 as amended: an unparsable config file raises only after the run's
log pass has completed — the run's full-record and best tables are produced
exactly as `processLogs` gives them and no config table is written — but
the error escapes `parse_one_run` into `main`'s loop, so the runs after the
failing one are not processed at all. -/
theorem config_error_stops_batch (ri : RunInput) (ris : List RunInput) (e : Unit)
    (h : readConfigs ri.cfgFiles = Except.error e) :
    runBatch (ri :: ris) =
      [{ trainlog := (processLogs ri.logFiles).1,
         best := (processLogs ri.logFiles).2, config := none }] := by
  have hp : parseOneRun ri =
      ({ trainlog := (processLogs ri.logFiles).1,
         best := (processLogs ri.logFiles).2, config := none }, Except.error e) := by
    unfold parseOneRun
    rw [h]
  unfold runBatch
  rw [hp]

/-- C8 witness: the amended behaviour at the concrete two-run batch. -/
theorem config_error_stops_batch_witness :
    runBatch (badCfgRun :: [okRun]) =
      [{ trainlog := (processLogs badCfgRun.logFiles).1,
         best := (processLogs badCfgRun.logFiles).2, config := none }] :=
  config_error_stops_batch badCfgRun [okRun] () rfl

/-! ## The config pass (claim C7) -/

theorem alookup_setParam (k' k v : String) (m : List (String × String)) :
    alookup k' (setParam k v m) = if k' = k then some v else alookup k' m := by
  induction m with
  | nil =>
    by_cases h : k' = k
    · simp [setParam, alookup, h]
    · have h' : ¬ k = k' := fun hh => h hh.symm
      simp [setParam, alookup, h, h']
  | cons e m ih =>
    obtain ⟨k₀, w⟩ := e
    by_cases h0 : k₀ = k
    · subst h0
      by_cases h : k' = k₀
      · simp [setParam, alookup, h]
      · have h' : ¬ k₀ = k' := fun hh => h hh.symm
        simp [setParam, alookup, h, h']
    · by_cases h : k₀ = k'
      · subst h
        simp [setParam, alookup, h0]
      · simp [setParam, alookup, h0, h, ih]

theorem keys_setParam (k v : String) (m : List (String × String)) :
    (setParam k v m).map Prod.fst =
      if k ∈ m.map Prod.fst then m.map Prod.fst else m.map Prod.fst ++ [k] := by
  induction m with
  | nil => simp [setParam]
  | cons e m ih =>
    obtain ⟨k₀, w⟩ := e
    by_cases h0 : k₀ = k
    · subst h0
      simp [setParam]
    · have h0' : ¬ k = k₀ := fun hh => h0 hh.symm
      by_cases hmem : k ∈ m.map Prod.fst
      · simp [setParam, h0, ih, hmem, h0']
      · simp [setParam, h0, ih, hmem, h0']

theorem keys_setParam_nodup (k v : String) (m : List (String × String))
    (h : (m.map Prod.fst).Nodup) : ((setParam k v m).map Prod.fst).Nodup := by
  rw [keys_setParam]
  by_cases hmem : k ∈ m.map Prod.fst
  · simpa [hmem] using h
  · simp only [hmem, if_false]
    rw [List.nodup_append]
    exact ⟨h, List.nodup_singleton _, by simp [List.disjoint_singleton, hmem]⟩

/-- `config_params` is the fold of one `setParam` per qualified item, over
the items of all files in order. -/
theorem harvestConfig_eq_foldl (files : List (List (String × String × String))) :
    harvestConfig files =
      (files.flatten.map qualify).foldl (fun m kv => setParam kv.1 kv.2 m) [] := by
  rw [harvestConfig, List.foldl_map, List.foldl_flatten]

theorem alookup_foldl_setParam (l : List (String × String)) (k : String) :
    alookup k (l.foldl (fun m kv => setParam kv.1 kv.2 m) []) =
      ((l.filter (fun e => e.1 == k)).getLast?).map Prod.snd := by
  induction l using List.reverseRecOn with
  | nil => simp [alookup]
  | append_singleton l e ih =>
    rw [List.foldl_append, List.foldl_cons, List.foldl_nil, alookup_setParam,
      List.filter_append]
    by_cases h : k = e.1
    · have hfe : List.filter (fun x => x.1 == k) [e] = [e] := by
        simp [h]
      rw [if_pos h, hfe, List.getLast?_concat]
      rfl
    · have hfe : List.filter (fun x => x.1 == k) [e] = [] := by
        simp only [List.filter_cons, List.filter_nil]
        have : (e.1 == k) = false := by
          simp only [beq_eq_false_iff_ne, ne_eq]
          intro hh
          exact h hh.symm
        rw [this]
        rfl
      rw [if_neg h, hfe, List.append_nil]
      exact ih

theorem keys_harvest_nodup (files : List (List (String × String × String))) :
    ((harvestConfig files).map Prod.fst).Nodup := by
  rw [harvestConfig_eq_foldl]
  generalize (files.flatten.map qualify) = l
  have : ∀ (l : List (String × String)) (m : List (String × String)),
      (m.map Prod.fst).Nodup →
      ((l.foldl (fun m kv => setParam kv.1 kv.2 m) m).map Prod.fst).Nodup := by
    intro l
    induction l with
    | nil => exact fun m h => h
    | cons kv l ih =>
      intro m h
      rw [List.foldl_cons]
      exact ih _ (keys_setParam_nodup _ _ _ h)
  exact this l [] (by simp)

/-- C7.  The harvested configuration mapping uses the dot-joined
`section.key` as its (case-sensitive, string-equality) key; for every key
the stored value is the one of the last occurrence of that qualified key
across the files in processing order; the keys are pairwise distinct; and
the emitted config table is exactly those pairs sorted ascending by
parameter name, values kept as raw strings. -/
theorem config_last_wins_sorted (files : List (List (String × String × String)))
    (k : String) :
    List.Sorted (fun a b : String × String => a.1 ≤ b.1) (configTable files)
    ∧ ((harvestConfig files).map Prod.fst).Nodup
    ∧ alookup k (harvestConfig files) =
        (((files.flatten.map qualify).filter (fun e => e.1 == k)).getLast?).map Prod.snd
    ∧ (configTable files).Perm (harvestConfig files) := by
  refine ⟨?_, keys_harvest_nodup files, ?_, List.mergeSort_perm _ _⟩
  · have htrans : ∀ a b c : String × String,
        decide (a.1 ≤ b.1) = true → decide (b.1 ≤ c.1) = true →
        decide (a.1 ≤ c.1) = true := by
      intro a b c hab hbc
      simp only [decide_eq_true_eq] at hab hbc ⊢
      exact le_trans hab hbc
    have htotal : ∀ a b : String × String,
        (decide (a.1 ≤ b.1) || decide (b.1 ≤ a.1)) = true := by
      intro a b
      simp only [Bool.or_eq_true, decide_eq_true_eq]
      exact le_total _ _
    have hpw := List.sorted_mergeSort htrans htotal (harvestConfig files)
    apply List.Pairwise.imp ?_ hpw
    intro a b hab
    rw [decide_eq_true_eq] at hab
    exact hab
  · rw [harvestConfig_eq_foldl]
    exact alookup_foldl_setParam _ _


/-! ## The dashboard (`dashboard.py`, claim C9)

`layout_for_run` reads a run's `trainlog.csv` (`df_all`) and
`best_results.csv` (`df_best`) back with typed columns and computes its
metrics with pandas.  A row is modelled by the columns the computations
touch (`Step` and `Episode` are digit strings in the CSVs, hence
non-negative integers; `t`, `Ret`, `Reward` are decimal numbers, modelled
exactly as rationals). -/

structure Row where
  Step : ℕ
  Episode : ℕ
  t : ℚ
  Ret : ℚ
  Reward : ℚ
deriving DecidableEq

/-- `block_size = 10_000` (`dashboard.py` line 51). -/
def blockSize : ℕ := 10000

/-- `df_all["Step_block"] = (df_all["Step"] // block_size) * block_size`
(line 52). -/
def stepBlock (r : Row) : ℕ := r.Step / blockSize * blockSize

/-- `total_time_hours = df_all["t"].sum() / 3600` (line 47). -/
def totalTimeHours (full : List Row) : ℚ := (full.map Row.t).sum / 3600

/-- `total_best_success = int((df_best["Reward"] >= 100).sum())` (line 48). -/
def totalBestSuccess (best : List Row) : ℕ :=
  (best.filter (fun r => decide (100 ≤ r.Reward))).length

/-- The (sum, count) accumulator behind a pandas groupby aggregation:
entries keyed by `Step_block` in first-seen order. -/
def accAdd (m : List (ℕ × ℚ × ℕ)) (key : ℕ) (x : ℚ) : List (ℕ × ℚ × ℕ) :=
  match m with
  | [] => [(key, x, 1)]
  | (k, sAcc, n) :: m' =>
    if k = key then (k, sAcc + x, n + 1) :: m'
    else (k, sAcc, n) :: accAdd m' key x

/-- `df_all.groupby("Step_block")[col].agg` : per distinct block the sum
and count of `f`, the groups emitted sorted ascending by block as pandas
does. -/
def groupAgg (full : List Row) (f : Row → ℚ) : List (ℕ × ℚ × ℕ) :=
  (full.foldl (fun m r => accAdd m (stepBlock r) (f r)) []).mergeSort
    (fun a b => decide (a.1 ≤ b.1))

/-- `avg_t_per_block` (lines 54-58): groupby `Step_block`, mean of `t`. -/
def avgTPerBlock (full : List Row) : List (ℕ × ℚ) :=
  (groupAgg full Row.t).map (fun e => (e.1, e.2.1 / (e.2.2 : ℚ)))

/-- `successes_per_block` (lines 60-65): per block the sum of the boolean
column `Reward >= 100`. -/
def successesPerBlock (full : List Row) : List (ℕ × ℚ) :=
  (groupAgg full (fun r => if 100 ≤ r.Reward then 1 else 0)).map
    (fun e => (e.1, e.2.1))

/-- The distinct `Step_block` values in pandas group order (ascending). -/
def blocksSorted (full : List Row) : List ℕ :=
  ((full.map stepBlock).dedup).mergeSort (fun a b => decide (a ≤ b))

/-- `episodes_per_block` (lines 67-71): per block `Episode.nunique()`. -/
def episodesPerBlock (full : List Row) : List (ℕ × ℕ) :=
  (blocksSorted full).map (fun b =>
    (b, ((full.filter (fun r => stepBlock r = b)).map Row.Episode).dedup.length))

/-- `df_best.nlargest(100, "Ret")` (line 134): the first 100 rows under a
stable descending sort by `Ret` (pandas keeps the first of equal rows). -/
def topRecords (best : List Row) : List Row :=
  (best.mergeSort (fun a b => decide (b.Ret ≤ a.Ret))).take 100

/-! ### Groupby lemmas -/

theorem alookup_accAdd (m : List (ℕ × ℚ × ℕ)) (key : ℕ) (x : ℚ) (k : ℕ) :
    alookup k (accAdd m key x) =
      if k = key then
        match alookup k m with
        | none => some (x, 1)
        | some (sAcc, n) => some (sAcc + x, n + 1)
      else alookup k m := by
  induction m with
  | nil =>
    by_cases h : k = key
    · simp [accAdd, alookup, h]
    · have h' : ¬ key = k := fun hh => h hh.symm
      simp [accAdd, alookup, h, h']
  | cons e m ih =>
    obtain ⟨k₀, sAcc, n⟩ := e
    by_cases h0 : k₀ = key
    · subst h0
      by_cases h : k₀ = k
      · subst h
        simp [accAdd, alookup]
      · have h' : ¬ k = k₀ := fun hh => h hh.symm
        simp [accAdd, alookup, h, h']
    · by_cases h : k₀ = k
      · subst h
        have h0' : ¬ k₀ = key := h0
        simp [accAdd, alookup, h0']
      · simp [accAdd, alookup, h0, h, ih]

theorem keys_accAdd (m : List (ℕ × ℚ × ℕ)) (key : ℕ) (x : ℚ) :
    (accAdd m key x).map Prod.fst =
      if key ∈ m.map Prod.fst then m.map Prod.fst else m.map Prod.fst ++ [key] := by
  induction m with
  | nil => simp [accAdd]
  | cons e m ih =>
    obtain ⟨k₀, sAcc, n⟩ := e
    by_cases h0 : k₀ = key
    · subst h0
      simp [accAdd]
    · have h0' : ¬ key = k₀ := fun hh => h0 hh.symm
      by_cases hmem : key ∈ m.map Prod.fst
      · simp [accAdd, h0, ih, hmem, h0']
      · simp [accAdd, h0, ih, hmem, h0']

theorem keys_accAdd_nodup (m : List (ℕ × ℚ × ℕ)) (key : ℕ) (x : ℚ)
    (h : (m.map Prod.fst).Nodup) : ((accAdd m key x).map Prod.fst).Nodup := by
  rw [keys_accAdd]
  by_cases hmem : key ∈ m.map Prod.fst
  · simpa [hmem] using h
  · simp only [hmem, if_false]
    rw [List.nodup_append]
    exact ⟨h, List.nodup_singleton _, by simp [List.disjoint_singleton, hmem]⟩

/-- The fold of `accAdd` computes, per key, the sum and the count over the
rows falling in that key's group. -/
theorem alookup_foldl_accAdd (f : Row → ℚ) (full : List Row) (k : ℕ) :
    alookup k (full.foldl (fun m r => accAdd m (stepBlock r) (f r)) []) =
      if (full.filter (fun r => stepBlock r = k)).isEmpty then none
      else some (((full.filter (fun r => stepBlock r = k)).map f).sum,
        (full.filter (fun r => stepBlock r = k)).length) := by
  induction full using List.reverseRecOn with
  | nil => simp [alookup]
  | append_singleton full r ih =>
    rw [List.foldl_append, List.foldl_cons, List.foldl_nil, alookup_accAdd, ih,
      List.filter_append]
    by_cases h : stepBlock r = k
    · have hk : k = stepBlock r := h.symm
      have hfe : List.filter (fun x => decide (stepBlock x = k)) [r] = [r] := by
        simp [h]
      rw [if_pos hk, hfe]
      by_cases hemp : (full.filter (fun x => decide (stepBlock x = k))).isEmpty
      · rw [if_pos hemp]
        have : full.filter (fun x => decide (stepBlock x = k)) = [] :=
          List.isEmpty_iff.mp hemp
        rw [this]
        simp
      · rw [if_neg hemp]
        have hne : ¬ ((full.filter (fun x => decide (stepBlock x = k))) ++ [r]).isEmpty := by
          simp [List.isEmpty_iff]
        rw [if_neg hne]
        simp
    · have hk : ¬ k = stepBlock r := fun hh => h hh.symm
      have hfe : List.filter (fun x => decide (stepBlock x = k)) [r] = [] := by
        simp [h]
      rw [if_neg hk, hfe, List.append_nil]

/-- Keys of the groupby accumulator are pairwise distinct. -/
theorem keys_foldl_accAdd_nodup (f : Row → ℚ) (full : List Row) :
    ((full.foldl (fun m r => accAdd m (stepBlock r) (f r)) []).map Prod.fst).Nodup := by
  have haux : ∀ (l : List Row) (m : List (ℕ × ℚ × ℕ)), (m.map Prod.fst).Nodup →
      ((l.foldl (fun m r => accAdd m (stepBlock r) (f r)) m).map Prod.fst).Nodup := by
    intro l
    induction l with
    | nil => exact fun m h => h
    | cons r l ih =>
      intro m h
      rw [List.foldl_cons]
      exact ih _ (keys_accAdd_nodup _ _ _ h)
  exact haux full [] (by simp)

/-- In a list with pairwise-distinct keys, membership of an entry is the
same as a successful lookup. -/
theorem mem_iff_alookup {α β : Type} [DecidableEq α] (m : List (α × β))
    (hnd : (m.map Prod.fst).Nodup) (k : α) (v : β) :
    (k, v) ∈ m ↔ alookup k m = some v := by
  induction m with
  | nil => simp [alookup]
  | cons e m ih =>
    obtain ⟨k₀, w⟩ := e
    rw [List.map_cons, List.nodup_cons] at hnd
    by_cases h : k₀ = k
    · subst h
      rw [List.mem_cons]
      constructor
      · rintro (hh | hh)
        · rw [Prod.mk.injEq] at hh
          simp [alookup, hh.2]
        · exact absurd (List.mem_map.mpr ⟨(k₀, v), hh, rfl⟩) hnd.1
      · intro hh
        have hwv : w = v := by
          simpa [alookup] using hh
        exact Or.inl (by rw [hwv])
    · have h' : ¬ k = k₀ := fun hh => h hh.symm
      rw [List.mem_cons]
      have halt : alookup k ((k₀, w) :: m) = alookup k m := by
        simp [alookup, h]
      rw [halt]
      constructor
      · rintro (hh | hh)
        · rw [Prod.mk.injEq] at hh
          exact absurd hh.1.symm h
        · exact (ih hnd.2 |>.mp) hh
      · intro hh
        exact Or.inr ((ih hnd.2).mpr hh)

/-- Sum of the boolean column `Reward >= 100` equals the count of rows
satisfying it. -/
theorem sum_success_indicator (l : List Row) :
    ((l.map (fun r => if 100 ≤ r.Reward then (1 : ℚ) else 0)).sum) =
      ((l.filter (fun r => decide (100 ≤ r.Reward))).length : ℚ) := by
  induction l with
  | nil => simp
  | cons r l ih =>
    by_cases h : 100 ≤ r.Reward
    · simp [h, ih, add_comm]
    · simp [h, ih]

/-- Membership in a groupby aggregate: exactly the occupied blocks appear,
each carrying the sum and the count over its group. -/
theorem mem_groupAgg_iff (full : List Row) (f : Row → ℚ) (b : ℕ) (v : ℚ × ℕ) :
    (b, v) ∈ groupAgg full f ↔
      (¬ (full.filter (fun r => stepBlock r = b)).isEmpty ∧
        v = (((full.filter (fun r => stepBlock r = b)).map f).sum,
          (full.filter (fun r => stepBlock r = b)).length)) := by
  rw [groupAgg, (List.mergeSort_perm _ _).mem_iff,
    mem_iff_alookup _ (keys_foldl_accAdd_nodup f full) b v, alookup_foldl_accAdd]
  by_cases hemp : (full.filter (fun r => stepBlock r = b)).isEmpty
  · rw [if_pos hemp]
    simp [hemp]
  · rw [if_neg hemp]
    constructor
    · intro h
      exact ⟨hemp, (Option.some_inj.mp h).symm⟩
    · rintro ⟨_, hv⟩
      rw [hv]

/-- A block is occupied exactly when some row falls in it. -/
theorem occupied_iff (full : List Row) (b : ℕ) :
    (¬ (full.filter (fun r => stepBlock r = b)).isEmpty) ↔
      ∃ r ∈ full, stepBlock r = b := by
  rw [List.isEmpty_iff]
  constructor
  · intro h
    by_contra hn
    push_neg at hn
    apply h
    rw [List.filter_eq_nil_iff]
    intro a ha
    simp only [decide_eq_true_eq]
    exact hn a ha
  · rintro ⟨r, hr, hb⟩ hememp
    rw [List.filter_eq_nil_iff] at hememp
    exact hememp r hr (by simp [hb])

/-- C9.  The dashboard's computed metrics: total elapsed time is the sum of
the `t` column divided by 3600; the success count is the number of
best-table rows with `Reward ≥ 100`; the per-block tables pair each
occupied bucket `(Step // 10000) * 10000` with the mean `t`, the count of
rows with `Reward ≥ 100`, and the number of distinct `Episode` values of
the full-table rows in that bucket; and the top-records table holds the
100 best-table rows of largest `Ret`, in descending order. -/
theorem dashboard_metrics (full best : List Row) :
    totalTimeHours full = (full.map Row.t).sum / 3600
    ∧ totalBestSuccess best = (best.filter (fun r => decide (100 ≤ r.Reward))).length
    ∧ (∀ b q, (b, q) ∈ avgTPerBlock full ↔
        ((∃ r ∈ full, r.Step / 10000 * 10000 = b) ∧
          q = ((full.filter (fun r => r.Step / 10000 * 10000 = b)).map Row.t).sum /
            ((full.filter (fun r => r.Step / 10000 * 10000 = b)).length : ℚ)))
    ∧ (∀ b q, (b, q) ∈ successesPerBlock full ↔
        ((∃ r ∈ full, r.Step / 10000 * 10000 = b) ∧
          q = (((full.filter (fun r => r.Step / 10000 * 10000 = b)).filter
            (fun r => decide (100 ≤ r.Reward))).length : ℚ)))
    ∧ (∀ b n, (b, n) ∈ episodesPerBlock full ↔
        ((∃ r ∈ full, r.Step / 10000 * 10000 = b) ∧
          n = ((full.filter
            (fun r => r.Step / 10000 * 10000 = b)).map Row.Episode).toFinset.card))
    ∧ List.Sorted (fun a c : Row => c.Ret ≤ a.Ret) (topRecords best)
    ∧ (topRecords best).Subperm best
    ∧ (topRecords best).length = min 100 best.length
    ∧ (∀ y ∈ best, y ∈ topRecords best ∨ ∀ x ∈ topRecords best, y.Ret ≤ x.Ret) := by
  have hsb : ∀ r : Row, stepBlock r = r.Step / 10000 * 10000 := fun r => rfl
  refine ⟨rfl, rfl, ?_, ?_, ?_, ?_, ?_, ?_, ?_⟩
  · intro b q
    rw [avgTPerBlock, List.mem_map]
    simp only [← hsb]
    constructor
    · rintro ⟨⟨b', v⟩, he, heq⟩
      rcases (mem_groupAgg_iff full Row.t b' v).mp he with ⟨hne, hv⟩
      rw [Prod.mk.injEq] at heq
      obtain ⟨hb', hq⟩ := heq
      dsimp only at hb' hq
      rw [hb'] at hne hv
      refine ⟨(occupied_iff full b).mp hne, ?_⟩
      rw [← hq, hv]
    · rintro ⟨hex, hq⟩
      refine ⟨(b, (((full.filter (fun r => stepBlock r = b)).map Row.t).sum,
        (full.filter (fun r => stepBlock r = b)).length)), ?_, ?_⟩
      · exact (mem_groupAgg_iff full Row.t b _).mpr
          ⟨(occupied_iff full b).mpr hex, rfl⟩
      · rw [Prod.mk.injEq]
        exact ⟨rfl, hq.symm⟩
  · intro b q
    rw [successesPerBlock, List.mem_map]
    simp only [← hsb]
    constructor
    · rintro ⟨⟨b', v⟩, he, heq⟩
      rcases (mem_groupAgg_iff full _ b' v).mp he with ⟨hne, hv⟩
      rw [Prod.mk.injEq] at heq
      obtain ⟨hb', hq⟩ := heq
      dsimp only at hb' hq
      rw [hb'] at hne hv
      refine ⟨(occupied_iff full b).mp hne, ?_⟩
      rw [← hq, hv]
      exact sum_success_indicator _
    · rintro ⟨hex, hq⟩
      refine ⟨(b, (((full.filter (fun r => stepBlock r = b)).map
          (fun r => if 100 ≤ r.Reward then (1 : ℚ) else 0)).sum,
        (full.filter (fun r => stepBlock r = b)).length)), ?_, ?_⟩
      · exact (mem_groupAgg_iff full _ b _).mpr
          ⟨(occupied_iff full b).mpr hex, rfl⟩
      · rw [Prod.mk.injEq]
        refine ⟨rfl, ?_⟩
        rw [hq]
        exact sum_success_indicator _
  · intro b n
    rw [episodesPerBlock, List.mem_map]
    simp only [← hsb]
    have hmemblocks : ∀ b', b' ∈ blocksSorted full ↔ ∃ r ∈ full, stepBlock r = b' := by
      intro b'
      rw [blocksSorted, (List.mergeSort_perm _ _).mem_iff, List.mem_dedup,
        List.mem_map]
    constructor
    · rintro ⟨b', hb', heq⟩
      rw [Prod.mk.injEq] at heq
      obtain ⟨hbb, hn⟩ := heq
      subst hbb
      refine ⟨(hmemblocks b').mp hb', ?_⟩
      rw [← hn, List.card_toFinset]
    · rintro ⟨hex, hn⟩
      refine ⟨b, (hmemblocks b).mpr hex, ?_⟩
      rw [Prod.mk.injEq]
      refine ⟨rfl, ?_⟩
      rw [hn, List.card_toFinset]
  · have htrans : ∀ a b c : Row,
        decide (b.Ret ≤ a.Ret) = true → decide (c.Ret ≤ b.Ret) = true →
        decide (c.Ret ≤ a.Ret) = true := by
      intro a b c hab hbc
      simp only [decide_eq_true_eq] at hab hbc ⊢
      exact le_trans hbc hab
    have htotal : ∀ a b : Row,
        (decide (b.Ret ≤ a.Ret) || decide (a.Ret ≤ b.Ret)) = true := by
      intro a b
      simp only [Bool.or_eq_true, decide_eq_true_eq]
      exact le_total _ _
    have hpw := List.sorted_mergeSort htrans htotal best
    rw [topRecords]
    apply List.Pairwise.imp ?_ (List.Pairwise.sublist (List.take_sublist _ _) hpw)
    intro a c hac
    rw [decide_eq_true_eq] at hac
    exact hac
  · exact ((List.take_sublist _ _).subperm).trans (List.mergeSort_perm _ _).subperm
  · rw [topRecords, List.length_take, (List.mergeSort_perm best _).length_eq]
  · intro y hy
    have hperm := List.mergeSort_perm best (fun a c => decide (c.Ret ≤ a.Ret))
    have htrans : ∀ a b c : Row,
        decide (b.Ret ≤ a.Ret) = true → decide (c.Ret ≤ b.Ret) = true →
        decide (c.Ret ≤ a.Ret) = true := by
      intro a b c hab hbc
      simp only [decide_eq_true_eq] at hab hbc ⊢
      exact le_trans hbc hab
    have htotal : ∀ a b : Row,
        (decide (b.Ret ≤ a.Ret) || decide (a.Ret ≤ b.Ret)) = true := by
      intro a b
      simp only [Bool.or_eq_true, decide_eq_true_eq]
      exact le_total _ _
    have hpw := List.sorted_mergeSort htrans htotal best
    have hy' : y ∈ (best.mergeSort (fun a c => decide (c.Ret ≤ a.Ret))).take 100 ++
        (best.mergeSort (fun a c => decide (c.Ret ≤ a.Ret))).drop 100 := by
      rw [List.take_append_drop]
      exact hperm.mem_iff.mpr hy
    have hpw2 : List.Pairwise (fun a c : Row => decide (c.Ret ≤ a.Ret) = true)
        ((best.mergeSort (fun a c => decide (c.Ret ≤ a.Ret))).take 100 ++
          (best.mergeSort (fun a c => decide (c.Ret ≤ a.Ret))).drop 100) := by
      rw [List.take_append_drop]
      exact hpw
    rcases List.mem_append.mp hy' with h | h
    · exact Or.inl h
    · refine Or.inr fun x hx => ?_
      have := (List.pairwise_append.mp hpw2).2.2 x hx y h
      rw [decide_eq_true_eq] at this
      exact this


/-! ## Token shapes of the grammar of section 4.1 (claims C1, C3) -/

/-- `\s+` : a non-empty whitespace run. -/
def wfWS1 (w : List Char) : Bool := !w.isEmpty && w.all isWS

/-- `\s*` : a whitespace run, possibly empty. -/
def wfWS0 (w : List Char) : Bool := w.all isWS

/-- `\d+` : a non-empty digit run. -/
def digTok (d : List Char) : Bool := !d.isEmpty && d.all isDigit

/-- The shape after an optional sign: `\d+(\.\d+)?`. -/
def decTokCore (u : List Char) : Bool :=
  let ds := u.takeWhile isDigit
  let v := u.dropWhile isDigit
  !ds.isEmpty &&
    (match v with
    | [] => true
    | c :: fs => c = '.' && !fs.isEmpty && fs.all isDigit)

/-- `[+-]?\d+(\.\d+)?` : a decimal token of the grammar. -/
def decTok : List Char → Bool
  | [] => false
  | c :: r => if c = '+' || c = '-' then decTokCore r else decTokCore (c :: r)

/-- `[A-Z][0-9]-[A-Z][0-9]` as a shape test. -/
def decisionWF : List Char → Bool
  | [a, b, c, d, e] => isUpper a && isDigit b && c = '-' && isUpper d && isDigit e
  | _ => false

/-- `[01]`. -/
def seenWF (sTok : List Char) : Bool := sTok == ['0'] || sTok == ['1']

/-- `Rand|Pred`. -/
def rpWF (rp : List Char) : Bool := rp == litRand || rp == litPred

/-- The next character cannot extend a whitespace run. -/
def headNotWS : List Char → Bool
  | [] => false
  | c :: _ => !isWS c

/-- The next character cannot extend a digit run. -/
def headNotDigit : List Char → Bool
  | [] => true
  | c :: _ => !isDigit c

/-- The next character cannot extend a decimal token. -/
def decBoundary : List Char → Bool
  | [] => true
  | c :: _ => !isDigit c && !(c = '.')

/-! ### Character-class facts -/

theorem ws_not_digit {c : Char} (h : isWS c = true) : isDigit c = false := by
  simp only [isWS, Bool.or_eq_true, decide_eq_true_eq] at h
  rcases h with ((((h | h) | h) | h) | h) | h <;> subst h <;> rfl

theorem digit_not_ws {c : Char} (h : isDigit c = true) : isWS c = false := by
  cases hw : isWS c
  · rfl
  · rw [ws_not_digit hw] at h
    cases h

theorem ws_not_upper {c : Char} (h : isWS c = true) : isUpper c = false := by
  simp only [isWS, Bool.or_eq_true, decide_eq_true_eq] at h
  rcases h with ((((h | h) | h) | h) | h) | h <;> subst h <;> rfl

theorem upper_not_ws {c : Char} (h : isUpper c = true) : isWS c = false := by
  cases hw : isWS c
  · rfl
  · rw [ws_not_upper hw] at h
    cases h

theorem digit_not_sign {c : Char} (h : isDigit c = true) :
    (decide (c = '+') || decide (c = '-')) = false := by
  simp only [Bool.or_eq_false_iff, decide_eq_false_iff_not]
  constructor
  · rintro rfl
    simp [isDigit] at h
  · rintro rfl
    simp [isDigit] at h

/-! ### Token-parser lemmas: a well-shaped token followed by a suitable
boundary is consumed exactly. -/

theorem headNotWS_head? {rest : List Char} (h : headNotWS rest = true) :
    ∀ c, rest.head? = some c → isWS c = false := by
  cases rest with
  | nil => intro c hc; cases hc
  | cons y r =>
    intro c hc
    rw [List.head?_cons, Option.some_inj] at hc
    subst hc
    simpa [headNotWS] using h

theorem headNotDigit_head? {rest : List Char} (h : headNotDigit rest = true) :
    ∀ c, rest.head? = some c → isDigit c = false := by
  cases rest with
  | nil => intro c hc; cases hc
  | cons y r =>
    intro c hc
    rw [List.head?_cons, Option.some_inj] at hc
    subst hc
    simpa [headNotDigit] using h

theorem takeWhile_split {p : Char → Bool} :
    ∀ (w rest : List Char), (∀ c ∈ w, p c = true) →
      (∀ c, rest.head? = some c → p c = false) →
      List.takeWhile p (w ++ rest) = w ∧ List.dropWhile p (w ++ rest) = rest := by
  intro w
  induction w with
  | nil =>
    intro rest _ hr
    cases rest with
    | nil => exact ⟨rfl, rfl⟩
    | cons c r =>
      have hc := hr c rfl
      simp [List.takeWhile_cons, List.dropWhile_cons, hc]
  | cons a w ih =>
    intro rest hw hr
    have ha := hw a (List.mem_cons_self _ _)
    have hrec := ih rest (fun c hc => hw c (List.mem_cons_of_mem a hc)) hr
    simp [List.takeWhile_cons, List.dropWhile_cons, ha, hrec.1, hrec.2]

theorem wfWS1_all {w : List Char} (hw : wfWS1 w = true) : ∀ c ∈ w, isWS c = true := by
  simp only [wfWS1, Bool.and_eq_true, List.all_eq_true] at hw
  exact hw.2

theorem wfWS0_all {w : List Char} (hw : wfWS0 w = true) : ∀ c ∈ w, isWS c = true := by
  simpa [wfWS0, List.all_eq_true] using hw

theorem digTok_all {d : List Char} (hd : digTok d = true) : ∀ c ∈ d, isDigit c = true := by
  simp only [digTok, Bool.and_eq_true, List.all_eq_true] at hd
  exact hd.2

theorem digTok_ne_nil {d : List Char} (hd : digTok d = true) : d ≠ [] := by
  simp only [digTok, Bool.and_eq_true] at hd
  intro h
  subst h
  cases hd.1

theorem ws1_append {w rest : List Char} (hw : wfWS1 w = true)
    (hr : headNotWS rest = true) : ws1 (w ++ rest) = some rest := by
  rcases w with _ | ⟨c, w'⟩
  · simp [wfWS1] at hw
  · have hall := wfWS1_all hw
    have hc : isWS c = true := hall c (List.mem_cons_self _ _)
    have hsplit := takeWhile_split w' rest
      (fun x hx => hall x (List.mem_cons_of_mem c hx)) (headNotWS_head? hr)
    show (if isWS c then some (List.dropWhile isWS (w' ++ rest)) else none) = some rest
    rw [hc, if_pos rfl, hsplit.2]

theorem ws0_append {w rest : List Char} (hw : wfWS0 w = true)
    (hr : headNotWS rest = true) : ws0 (w ++ rest) = rest := by
  have hsplit := takeWhile_split w rest (wfWS0_all hw) (headNotWS_head? hr)
  exact hsplit.2

theorem digits1_append {d rest : List Char} (hd : digTok d = true)
    (hr : headNotDigit rest = true) : digits1 (d ++ rest) = some (d, rest) := by
  have hsplit := takeWhile_split d rest (digTok_all hd) (headNotDigit_head? hr)
  rw [digits1]
  simp only [hsplit.1, hsplit.2]
  rw [if_neg]
  intro h
  exact digTok_ne_nil hd (List.isEmpty_iff.mp h)

theorem lit_append (l rest : List Char) : lit l (l ++ rest) = some rest := by
  induction l with
  | nil => rfl
  | cons c l ih =>
    show (if c = c then lit l (l ++ rest) else none) = some rest
    rw [if_pos rfl, ih]

/-! ### Decimal-token lemmas -/

theorem decTokCore_parts {u : List Char} (h : decTokCore u = true) :
    ∃ ds f, u = ds ++ f ∧ ds ≠ [] ∧ (∀ c ∈ ds, isDigit c = true) ∧
      (f = [] ∨ ∃ fd, f = '.' :: fd ∧ fd ≠ [] ∧ ∀ c ∈ fd, isDigit c = true) := by
  simp only [decTokCore, Bool.and_eq_true] at h
  obtain ⟨h1, h2⟩ := h
  refine ⟨u.takeWhile isDigit, u.dropWhile isDigit,
    (List.takeWhile_append_dropWhile _ _).symm, ?_,
    fun c hc => List.mem_takeWhile_imp hc, ?_⟩
  · intro hnil
    rw [hnil] at h1
    cases h1
  · cases hv : u.dropWhile isDigit with
    | nil => exact Or.inl rfl
    | cons c fs =>
      rw [hv] at h2
      simp only [Bool.and_eq_true, decide_eq_true_eq, List.all_eq_true] at h2
      obtain ⟨⟨hc, hfs⟩, hall⟩ := h2
      subst hc
      refine Or.inr ⟨fs, rfl, ?_, hall⟩
      intro hfnil
      rw [hfnil] at hfs
      cases hfs

theorem decTok_parts {tok : List Char} (h : decTok tok = true) :
    ∃ sgn ds f, tok = sgn ++ (ds ++ f)
      ∧ (sgn = [] ∨ sgn = ['+'] ∨ sgn = ['-'])
      ∧ ds ≠ [] ∧ (∀ c ∈ ds, isDigit c = true)
      ∧ (f = [] ∨ ∃ fd, f = '.' :: fd ∧ fd ≠ [] ∧ ∀ c ∈ fd, isDigit c = true) := by
  cases tok with
  | nil => cases h
  | cons c r =>
    rw [decTok] at h
    by_cases hsign : (decide (c = '+') || decide (c = '-')) = true
    · rw [if_pos (by exact hsign)] at h
      obtain ⟨ds, f, hu, hds, hdig, hf⟩ := decTokCore_parts h
      refine ⟨[c], ds, f, by rw [hu]; rfl, ?_, hds, hdig, hf⟩
      simp only [Bool.or_eq_true, decide_eq_true_eq] at hsign
      rcases hsign with hh | hh
      · exact Or.inr (Or.inl (by rw [hh]))
      · exact Or.inr (Or.inr (by rw [hh]))
    · rw [if_neg (by exact hsign)] at h
      obtain ⟨ds, f, hu, hds, hdig, hf⟩ := decTokCore_parts h
      exact ⟨[], ds, f, by rw [← hu]; rfl, Or.inl rfl, hds, hdig, hf⟩

theorem digTok_of_parts {ds : List Char} (hne : ds ≠ [])
    (hdig : ∀ c ∈ ds, isDigit c = true) : digTok ds = true := by
  simp only [digTok, Bool.and_eq_true, List.all_eq_true]
  refine ⟨?_, hdig⟩
  cases ds with
  | nil => exact absurd rfl hne
  | cons a b => rfl

/-! ### Head facts -/

theorem digTok_headNotWS {d : List Char} (hd : digTok d = true) (r : List Char) :
    headNotWS (d ++ r) = true := by
  cases d with
  | nil => cases hd
  | cons c d' =>
    have hc : isDigit c = true := digTok_all hd c (List.mem_cons_self _ _)
    show (!isWS c) = true
    rw [digit_not_ws hc]
    rfl

theorem decTok_head_digit_or_sign {c : Char} {r : List Char}
    (h : decTok (c :: r) = true) :
    isDigit c = true ∨ c = '+' ∨ c = '-' := by
  rw [decTok] at h
  by_cases hsign : (decide (c = '+') || decide (c = '-')) = true
  · simp only [Bool.or_eq_true, decide_eq_true_eq] at hsign
    exact Or.inr hsign
  · rw [if_neg (by exact hsign)] at h
    simp only [decTokCore, Bool.and_eq_true] at h
    obtain ⟨h1, _⟩ := h
    by_cases hc : isDigit c = true
    · exact Or.inl hc
    · rw [List.takeWhile_cons] at h1
      rw [Bool.not_eq_true] at hc
      rw [hc] at h1
      cases h1

theorem decTok_headNotWS {tok : List Char} (ht : decTok tok = true) (r : List Char) :
    headNotWS (tok ++ r) = true := by
  cases tok with
  | nil => cases ht
  | cons c tok' =>
    show (!isWS c) = true
    rcases decTok_head_digit_or_sign ht with h | h | h
    · rw [digit_not_ws h]
      rfl
    · subst h
      rfl
    · subst h
      rfl

theorem decisionWF_parts {dec : List Char} (h : decisionWF dec = true) :
    ∃ a b d e, dec = [a, b, '-', d, e] ∧ isUpper a = true ∧ isDigit b = true ∧
      isUpper d = true ∧ isDigit e = true := by
  cases dec with
  | nil => cases h
  | cons a t1 =>
    cases t1 with
    | nil => cases h
    | cons b t2 =>
      cases t2 with
      | nil => cases h
      | cons c t3 =>
        cases t3 with
        | nil => cases h
        | cons d t4 =>
          cases t4 with
          | nil => cases h
          | cons e t5 =>
            cases t5 with
            | cons f t6 => cases h
            | nil =>
              simp only [decisionWF, Bool.and_eq_true, decide_eq_true_eq] at h
              obtain ⟨⟨⟨⟨ha, hb⟩, hc⟩, hd⟩, he⟩ := h
              subst hc
              exact ⟨a, b, d, e, rfl, ha, hb, hd, he⟩

theorem decisionWF_headNotWS {dec : List Char} (h : decisionWF dec = true)
    (r : List Char) : headNotWS (dec ++ r) = true := by
  obtain ⟨a, b, d, e, hdec, ha, _, _, _⟩ := decisionWF_parts h
  subst hdec
  show (!isWS a) = true
  rw [upper_not_ws ha]
  rfl

theorem seenWF_headNotWS {sTok : List Char} (h : seenWF sTok = true)
    (r : List Char) : headNotWS (sTok ++ r) = true := by
  simp only [seenWF, Bool.or_eq_true, beq_iff_eq] at h
  rcases h with h | h <;> subst h <;> rfl

theorem ws_not_dot {c : Char} (h : isWS c = true) : (c = '.') = False := by
  simp only [isWS, Bool.or_eq_true, decide_eq_true_eq] at h
  rcases h with ((((h | h) | h) | h) | h) | h <;> subst h <;> simp

theorem wfWS1_decBoundary {w : List Char} (hw : wfWS1 w = true) (r : List Char) :
    decBoundary (w ++ r) = true := by
  cases w with
  | nil => simp [wfWS1] at hw
  | cons c w' =>
    have hc : isWS c = true := wfWS1_all hw c (List.mem_cons_self _ _)
    show (!isDigit c && !(decide (c = '.'))) = true
    rw [ws_not_digit hc]
    have : decide (c = '.') = false := by
      rw [decide_eq_false_iff_not]
      rw [ws_not_dot hc]
      exact not_false
    rw [this]
    rfl

theorem wfWS1_headNotDigit {w : List Char} (hw : wfWS1 w = true) (r : List Char) :
    headNotDigit (w ++ r) = true := by
  cases w with
  | nil => simp [wfWS1] at hw
  | cons c w' =>
    have hc : isWS c = true := wfWS1_all hw c (List.mem_cons_self _ _)
    show (!isDigit c) = true
    rw [ws_not_digit hc]
    rfl

theorem ws0_headNotDigit {w rest : List Char} (hw : wfWS0 w = true)
    (hr : headNotDigit rest = true) : headNotDigit (w ++ rest) = true := by
  cases w with
  | nil => exact hr
  | cons c w' =>
    have hc : isWS c = true := wfWS0_all hw c (List.mem_cons_self _ _)
    show (!isDigit c) = true
    rw [ws_not_digit hc]
    rfl

/-! ### Remaining token-parser append lemmas -/

theorem signedDec_append {tok rest : List Char} (ht : decTok tok = true)
    (hr : decBoundary rest = true) : signedDec (tok ++ rest) = some (tok, rest) := by
  obtain ⟨sgn, ds, f, htok, hsgn, hdsne, hdig, hf⟩ := decTok_parts ht
  have hds : digTok ds = true := digTok_of_parts hdsne hdig
  have hrd : headNotDigit rest = true := by
    cases rest with
    | nil => rfl
    | cons c r =>
      simp only [decBoundary, Bool.and_eq_true] at hr
      show (!isDigit c) = true
      exact hr.1
  obtain ⟨d₀, ds', hd0⟩ : ∃ d₀ ds', ds = d₀ :: ds' := by
    cases ds with
    | nil => exact absurd rfl hdsne
    | cons a b => exact ⟨a, b, rfl⟩
  have hd0dig : isDigit d₀ = true := hdig d₀ (by rw [hd0]; exact List.mem_cons_self _ _)
  have hss : signSplit (sgn ++ (ds ++ (f ++ rest))) = (sgn, ds ++ (f ++ rest)) := by
    rcases hsgn with h | h | h
    · subst h
      rw [List.nil_append, hd0, List.cons_append]
      show (if d₀ = '+' || d₀ = '-' then ([d₀], ds' ++ (f ++ rest))
        else ([], d₀ :: (ds' ++ (f ++ rest)))) = ([], d₀ :: (ds' ++ (f ++ rest)))
      rw [if_neg]
      intro hcon
      rw [digit_not_sign hd0dig] at hcon
      cases hcon
    · subst h
      rfl
    · subst h
      rfl
  have hform : (sgn ++ (ds ++ f)) ++ rest = sgn ++ (ds ++ (f ++ rest)) := by
    simp [List.append_assoc]
  rw [htok, hform]
  unfold signedDec
  rw [hss]
  dsimp only
  rcases hf with h | ⟨fd, hfd, hfdne, hfddig⟩
  · subst h
    simp only [List.nil_append, List.append_nil]
    rw [digits1_append hds hrd]
    cases rest with
    | nil => rfl
    | cons c r =>
      have hcdot : ¬ c = '.' := by
        simp only [decBoundary, Bool.and_eq_true] at hr
        have := hr.2
        simpa using this
      dsimp only
      rw [if_neg hcdot]
  · subst hfd
    have hfb : headNotDigit (('.' :: fd) ++ rest) = true := rfl
    rw [digits1_append hds hfb]
    simp only [List.cons_append]
    rw [if_pos trivial]
    rw [digits1_append (digTok_of_parts hfdne hfddig) hrd]
    simp [List.append_assoc]

theorem decisionTok_append {dec rest : List Char} (h : decisionWF dec = true) :
    decisionTok (dec ++ rest) = some (dec, rest) := by
  obtain ⟨a, b, d, e, hdec, ha, hb, hd, he⟩ := decisionWF_parts h
  subst hdec
  simp [decisionTok, ha, hb, hd, he]

theorem seenTok_append {sTok rest : List Char} (h : seenWF sTok = true) :
    seenTok (sTok ++ rest) = some (sTok, rest) := by
  simp only [seenWF, Bool.or_eq_true, beq_iff_eq] at h
  rcases h with h | h <;> subst h <;> rfl

theorem randPred_append {rp rest : List Char} (h : rpWF rp = true) :
    randPred (rp ++ rest) = some rest := by
  simp only [rpWF, Bool.or_eq_true, beq_iff_eq] at h
  rcases h with h | h <;> subst h
  · rw [randPred, lit_append]
  · rw [randPred]
    have hnone : lit litRand (litPred ++ rest) = none := rfl
    rw [hnone, lit_append]

/-! ### A line of the grammar

A `GLine` lists the tokens of one line that satisfies the full grammar of
the pattern: the skipped prefix, each whitespace run (`w…` for a mandatory
`\s+`, `s…` for an optional `\s*`), the eleven captured tokens, the
Rand/Pred alternative and the ignored tail of the line. -/

structure GLine where
  pre : List Char
  w1 : List Char
  w2 : List Char
  step : List Char
  s1 : List Char
  s2 : List Char
  episode : List Char
  w3 : List Char
  decision : List Char
  w4 : List Char
  w5 : List Char
  rp : List Char
  w6 : List Char
  w7 : List Char
  eps : List Char
  w8 : List Char
  w9 : List Char
  lr : List Char
  w10 : List Char
  s3 : List Char
  s4 : List Char
  ret : List Char
  w11 : List Char
  w12 : List Char
  s5 : List Char
  s6 : List Char
  lastCrash : List Char
  w13 : List Char
  t : List Char
  w14 : List Char
  s7 : List Char
  s8 : List Char
  sf : List Char
  w15 : List Char
  s9 : List Char
  seen : List Char
  w16 : List Char
  s10 : List Char
  reward : List Char
  tailRest : List Char

/-- What remains of the line from each token on (the layout the pattern
expects, segment by segment). -/
def GLine.restReward (g : GLine) : List Char :=
  litRewardK ++ (g.s10 ++ (g.reward ++ g.tailRest))

def GLine.restSeen (g : GLine) : List Char :=
  litSeenK ++ (g.s9 ++ (g.seen ++ (g.w16 ++ g.restReward)))

def GLine.restSF (g : GLine) : List Char :=
  litSFK ++ (g.s7 ++ (['='] ++ (g.s8 ++ (g.sf ++ (g.w15 ++ g.restSeen)))))

def GLine.restT (g : GLine) : List Char :=
  litTK ++ (g.t ++ (g.w14 ++ g.restSF))

def GLine.restCrash (g : GLine) : List Char :=
  litCrashK ++ (g.s5 ++ (['='] ++ (g.s6 ++ (g.lastCrash ++ (g.w13 ++ g.restT)))))

def GLine.restLast (g : GLine) : List Char :=
  litLastK ++ (g.w12 ++ g.restCrash)

def GLine.restRet (g : GLine) : List Char :=
  litRetK ++ (g.s3 ++ (['='] ++ (g.s4 ++ (g.ret ++ (g.w11 ++ g.restLast)))))

def GLine.restLr (g : GLine) : List Char :=
  litLrK ++ (g.w9 ++ (g.lr ++ (g.w10 ++ g.restRet)))

def GLine.restEps (g : GLine) : List Char :=
  litEpsK ++ (g.w7 ++ (g.eps ++ (g.w8 ++ g.restLr)))

def GLine.restDecision (g : GLine) : List Char :=
  g.decision ++ (g.w4 ++ (['-'] ++ (g.w5 ++ (g.rp ++ (g.w6 ++ g.restEps)))))

/-- Everything after the `-` at which `.*?` stops. -/
def GLine.renderTail (g : GLine) : List Char :=
  g.w1 ++ (litIter ++ (g.w2 ++ (g.step ++ (g.s1 ++ (['/'] ++ (g.s2 ++
    (g.episode ++ (g.w3 ++ g.restDecision))))))))

/-- The whole line. -/
def GLine.render (g : GLine) : String :=
  String.mk (g.pre ++ ('-' :: g.renderTail))

/-- The eleven capture groups the grammar assigns to the line. -/
def GLine.groups (g : GLine) : Groups :=
  Groups.mk g.step g.episode g.decision g.eps g.lr g.ret g.lastCrash
    g.t g.sf g.seen g.reward

/-- Well-formedness of a `GLine`: every token has the shape its grammar
position demands; the prefix contains no `-` (so the match anchors at the
rendered dash) and no newline; the leftover tail cannot extend the last
captured decimal. -/
structure GLine.WF (g : GLine) : Prop where
  pre : g.pre.all (fun c => !(c = '-') && !(c = '\n')) = true
  w1 : wfWS1 g.w1 = true
  w2 : wfWS1 g.w2 = true
  step : digTok g.step = true
  s1 : wfWS0 g.s1 = true
  s2 : wfWS0 g.s2 = true
  episode : digTok g.episode = true
  w3 : wfWS1 g.w3 = true
  decision : decisionWF g.decision = true
  w4 : wfWS1 g.w4 = true
  w5 : wfWS1 g.w5 = true
  rp : rpWF g.rp = true
  w6 : wfWS1 g.w6 = true
  w7 : wfWS1 g.w7 = true
  eps : decTok g.eps = true
  w8 : wfWS1 g.w8 = true
  w9 : wfWS1 g.w9 = true
  lr : decTok g.lr = true
  w10 : wfWS1 g.w10 = true
  s3 : wfWS0 g.s3 = true
  s4 : wfWS0 g.s4 = true
  ret : decTok g.ret = true
  w11 : wfWS1 g.w11 = true
  w12 : wfWS1 g.w12 = true
  s5 : wfWS0 g.s5 = true
  s6 : wfWS0 g.s6 = true
  lastCrash : digTok g.lastCrash = true
  w13 : wfWS1 g.w13 = true
  t : decTok g.t = true
  w14 : wfWS1 g.w14 = true
  s7 : wfWS0 g.s7 = true
  s8 : wfWS0 g.s8 = true
  sf : decTok g.sf = true
  w15 : wfWS1 g.w15 = true
  s9 : wfWS0 g.s9 = true
  seen : seenWF g.seen = true
  w16 : wfWS1 g.w16 = true
  s10 : wfWS0 g.s10 = true
  reward : decTok g.reward = true
  tailRest : decBoundary g.tailRest = true

theorem rpWF_headNotWS {rp : List Char} (h : rpWF rp = true) (r : List Char) :
    headNotWS (rp ++ r) = true := by
  simp only [rpWF, Bool.or_eq_true, beq_iff_eq] at h
  rcases h with h | h <;> subst h <;> rfl

/-! ### The keyed sub-parsers consume their rendered segments exactly -/

theorem keyNum_append (key : List Char) {w tok rest : List Char}
    (hw : wfWS1 w = true) (htok : decTok tok = true)
    (hrest : decBoundary rest = true) :
    keyNum key (key ++ (w ++ (tok ++ rest))) = some (tok, rest) := by
  simp only [keyNum]
  rw [lit_append key]
  simp only [Option.bind_eq_bind, Option.some_bind]
  rw [ws1_append hw (decTok_headNotWS htok _)]
  simp only [Option.bind_eq_bind, Option.some_bind]
  rw [signedDec_append htok hrest]

theorem keyEqNum_append (key : List Char) {s s' tok rest : List Char}
    (hs : wfWS0 s = true) (hs' : wfWS0 s' = true) (htok : decTok tok = true)
    (hrest : decBoundary rest = true) :
    keyEqNum key (key ++ (s ++ (['='] ++ (s' ++ (tok ++ rest))))) =
      some (tok, rest) := by
  simp only [keyEqNum]
  rw [lit_append key]
  simp only [Option.bind_eq_bind, Option.some_bind]
  rw [ws0_append hs (show headNotWS (['='] ++ (s' ++ (tok ++ rest))) = true from rfl),
    lit_append ['=']]
  simp only [Option.bind_eq_bind, Option.some_bind]
  rw [ws0_append hs' (decTok_headNotWS htok rest), signedDec_append htok hrest]

theorem keyEqDigits_append (key : List Char) {s s' tok rest : List Char}
    (hs : wfWS0 s = true) (hs' : wfWS0 s' = true) (htok : digTok tok = true)
    (hrest : headNotDigit rest = true) :
    keyEqDigits key (key ++ (s ++ (['='] ++ (s' ++ (tok ++ rest))))) =
      some (tok, rest) := by
  simp only [keyEqDigits]
  rw [lit_append key]
  simp only [Option.bind_eq_bind, Option.some_bind]
  rw [ws0_append hs (show headNotWS (['='] ++ (s' ++ (tok ++ rest))) = true from rfl),
    lit_append ['=']]
  simp only [Option.bind_eq_bind, Option.some_bind]
  rw [ws0_append hs' (digTok_headNotWS htok rest), digits1_append htok hrest]

theorem keySeen_append {s sTok rest : List Char}
    (hs : wfWS0 s = true) (hseen : seenWF sTok = true) :
    keySeen (litSeenK ++ (s ++ (sTok ++ rest))) = some (sTok, rest) := by
  simp only [keySeen]
  rw [lit_append litSeenK]
  simp only [Option.bind_eq_bind, Option.some_bind]
  rw [ws0_append hs (seenWF_headNotWS hseen _), seenTok_append hseen]

theorem keyReward_append {s tok rest : List Char}
    (hs : wfWS0 s = true) (htok : decTok tok = true)
    (hrest : decBoundary rest = true) :
    keyReward (litRewardK ++ (s ++ (tok ++ rest))) = some (tok, rest) := by
  simp only [keyReward]
  rw [lit_append litRewardK]
  simp only [Option.bind_eq_bind, Option.some_bind]
  rw [ws0_append hs (decTok_headNotWS htok _), signedDec_append htok hrest]

/-! ### Boundary facts at the rendered literal tokens -/

theorem litIter_headNotWS (r : List Char) : headNotWS (litIter ++ r) = true := rfl

theorem slash_headNotWS (r : List Char) : headNotWS (['/'] ++ r) = true := rfl

theorem slash_headNotDigit (r : List Char) : headNotDigit (['/'] ++ r) = true := rfl

theorem dash_headNotWS (r : List Char) : headNotWS (['-'] ++ r) = true := rfl

theorem GLine.restDecision_hnws (g : GLine) (h : decisionWF g.decision = true) :
    headNotWS g.restDecision = true := by
  simp only [GLine.restDecision]
  exact decisionWF_headNotWS h _

theorem GLine.restEps_hnws (g : GLine) : headNotWS g.restEps = true := rfl

theorem GLine.restLr_hnws (g : GLine) : headNotWS g.restLr = true := rfl

theorem GLine.restRet_hnws (g : GLine) : headNotWS g.restRet = true := rfl

theorem GLine.restLast_hnws (g : GLine) : headNotWS g.restLast = true := rfl

theorem GLine.restCrash_hnws (g : GLine) : headNotWS g.restCrash = true := rfl

theorem GLine.restT_hnws (g : GLine) : headNotWS g.restT = true := rfl

theorem GLine.restSF_hnws (g : GLine) : headNotWS g.restSF = true := rfl

theorem GLine.restSeen_hnws (g : GLine) : headNotWS g.restSeen = true := rfl

theorem GLine.restReward_hnws (g : GLine) : headNotWS g.restReward = true := rfl

/-! ### The stage parsers consume the rendered segments exactly -/

theorem tmIter_render (g : GLine) (hwf : g.WF) :
    tmIter g.renderTail = some (g.step, g.episode, g.restDecision) := by
  simp only [tmIter, GLine.renderTail]
  rw [ws1_append hwf.w1 (litIter_headNotWS _)]
  simp only [Option.bind_eq_bind, Option.some_bind]
  rw [lit_append litIter]
  simp only [Option.bind_eq_bind, Option.some_bind]
  rw [ws1_append hwf.w2 (digTok_headNotWS hwf.step _)]
  simp only [Option.bind_eq_bind, Option.some_bind]
  rw [digits1_append hwf.step (ws0_headNotDigit hwf.s1 (slash_headNotDigit _))]
  simp only [Option.bind_eq_bind, Option.some_bind]
  rw [ws0_append hwf.s1 (slash_headNotWS _)]
  rw [lit_append ['/']]
  simp only [Option.bind_eq_bind, Option.some_bind]
  rw [ws0_append hwf.s2 (digTok_headNotWS hwf.episode _)]
  rw [digits1_append hwf.episode (wfWS1_headNotDigit hwf.w3 _)]
  simp only [Option.bind_eq_bind, Option.some_bind]
  rw [ws1_append hwf.w3 (g.restDecision_hnws hwf.decision)]
  simp only [Option.bind_eq_bind, Option.some_bind]
  rfl

theorem tmDecision_render (g : GLine) (hwf : g.WF) :
    tmDecision g.restDecision = some (g.decision, g.restEps) := by
  simp only [tmDecision, GLine.restDecision]
  rw [decisionTok_append hwf.decision]
  simp only [Option.bind_eq_bind, Option.some_bind]
  rw [ws1_append hwf.w4 (dash_headNotWS _)]
  simp only [Option.bind_eq_bind, Option.some_bind]
  rw [lit_append ['-']]
  simp only [Option.bind_eq_bind, Option.some_bind]
  rw [ws1_append hwf.w5 (rpWF_headNotWS hwf.rp _)]
  simp only [Option.bind_eq_bind, Option.some_bind]
  rw [randPred_append hwf.rp]
  simp only [Option.bind_eq_bind, Option.some_bind]
  rw [ws1_append hwf.w6 (GLine.restEps_hnws g)]
  simp only [Option.bind_eq_bind, Option.some_bind]
  rfl

theorem tmFront_render (g : GLine) (hwf : g.WF) :
    tmFront g.renderTail =
      some ((g.step, g.episode, g.decision, g.eps, g.lr, g.ret), g.restLast) := by
  simp only [tmFront]
  rw [tmIter_render g hwf]
  simp only [Option.bind_eq_bind, Option.some_bind]
  rw [tmDecision_render g hwf]
  simp only [Option.bind_eq_bind, Option.some_bind]
  simp only [GLine.restEps]
  rw [keyNum_append litEpsK hwf.w7 hwf.eps (wfWS1_decBoundary hwf.w8 g.restLr)]
  simp only [Option.bind_eq_bind, Option.some_bind]
  rw [ws1_append hwf.w8 (GLine.restLr_hnws g)]
  simp only [Option.bind_eq_bind, Option.some_bind]
  simp only [GLine.restLr]
  rw [keyNum_append litLrK hwf.w9 hwf.lr (wfWS1_decBoundary hwf.w10 g.restRet)]
  simp only [Option.bind_eq_bind, Option.some_bind]
  rw [ws1_append hwf.w10 (GLine.restRet_hnws g)]
  simp only [Option.bind_eq_bind, Option.some_bind]
  simp only [GLine.restRet]
  rw [keyEqNum_append litRetK hwf.s3 hwf.s4 hwf.ret (wfWS1_decBoundary hwf.w11 g.restLast)]
  simp only [Option.bind_eq_bind, Option.some_bind]
  rw [ws1_append hwf.w11 (GLine.restLast_hnws g)]
  simp only [Option.bind_eq_bind, Option.some_bind]
  rfl

theorem tmBack_render (g : GLine) (hwf : g.WF) :
    tmBack g.restLast = some (g.lastCrash, g.t, g.sf, g.seen, g.reward) := by
  simp only [tmBack, GLine.restLast]
  rw [lit_append litLastK]
  simp only [Option.bind_eq_bind, Option.some_bind]
  rw [ws1_append hwf.w12 (GLine.restCrash_hnws g)]
  simp only [Option.bind_eq_bind, Option.some_bind]
  simp only [GLine.restCrash]
  rw [keyEqDigits_append litCrashK hwf.s5 hwf.s6 hwf.lastCrash
    (wfWS1_headNotDigit hwf.w13 g.restT)]
  simp only [Option.bind_eq_bind, Option.some_bind]
  rw [ws1_append hwf.w13 (GLine.restT_hnws g)]
  simp only [Option.bind_eq_bind, Option.some_bind]
  simp only [GLine.restT]
  rw [lit_append litTK]
  simp only [Option.bind_eq_bind, Option.some_bind]
  rw [signedDec_append hwf.t (wfWS1_decBoundary hwf.w14 g.restSF)]
  simp only [Option.bind_eq_bind, Option.some_bind]
  rw [ws1_append hwf.w14 (GLine.restSF_hnws g)]
  simp only [Option.bind_eq_bind, Option.some_bind]
  simp only [GLine.restSF]
  rw [keyEqNum_append litSFK hwf.s7 hwf.s8 hwf.sf (wfWS1_decBoundary hwf.w15 g.restSeen)]
  simp only [Option.bind_eq_bind, Option.some_bind]
  rw [ws1_append hwf.w15 (GLine.restSeen_hnws g)]
  simp only [Option.bind_eq_bind, Option.some_bind]
  simp only [GLine.restSeen]
  rw [keySeen_append hwf.s9 hwf.seen]
  simp only [Option.bind_eq_bind, Option.some_bind]
  rw [ws1_append hwf.w16 (GLine.restReward_hnws g)]
  simp only [Option.bind_eq_bind, Option.some_bind]
  simp only [GLine.restReward]
  rw [keyReward_append hwf.s10 hwf.reward hwf.tailRest]
  simp only [Option.bind_eq_bind, Option.some_bind]
  rfl

theorem tailMatch_render (g : GLine) (hwf : g.WF) :
    tailMatch g.renderTail = some g.groups := by
  simp only [tailMatch]
  rw [tmFront_render g hwf]
  simp only [Option.bind_eq_bind, Option.some_bind]
  rw [tmBack_render g hwf]
  simp only [Option.bind_eq_bind, Option.some_bind]
  rfl

/-- `^\s*.*?` : the scan stops at the first `-`; a prefix with no `-` and no
`\n` is skipped whatever the flag, and the tail match fires at the dash. -/
theorem scanDash_skip :
    ∀ (pre : List Char), pre.all (fun c => !(c = '-') && !(c = '\n')) = true →
      ∀ (tl : List Char) (gs : Groups), tailMatch tl = some gs →
      ∀ b, scanDash (pre ++ ('-' :: tl)) b = some gs := by
  intro pre
  induction pre with
  | nil =>
    intro _ tl gs h b
    rw [List.nil_append]
    unfold scanDash
    rw [if_pos rfl, h]
  | cons c pre ih =>
    intro hall tl gs h b
    have hcc := List.all_eq_true.mp hall c (List.mem_cons_self _ _)
    simp only [Bool.and_eq_true, Bool.not_eq_true', decide_eq_false_iff_not] at hcc
    obtain ⟨h1, h2⟩ := hcc
    have hall' : pre.all (fun c => !(c = '-') && !(c = '\n')) = true := by
      rw [List.all_eq_true] at hall ⊢
      exact fun x hx => hall x (List.mem_cons_of_mem _ hx)
    have hnc : ¬((decide (c = '\n') && b) = true) := by
      simp only [Bool.and_eq_true, decide_eq_true_eq]
      rintro ⟨hcn, -⟩
      exact h2 hcn
    rw [List.cons_append]
    unfold scanDash
    rw [if_neg h1, if_neg hnc]
    exact ih hall' tl gs h (b || !isWS c)

/-- **C1**: every line that satisfies the full grammar — an arbitrary
dash-free, newline-free prefix, then `-`, then the tail of the pattern with
each token of the demanded shape — is accepted by `extract`, and the
eleven fields of the returned record are exactly the matched groups, with
`Found` converted from the digit `'0'`/`'1'` to a boolean. -/
theorem extract_matches_grammar (g : GLine) (hwf : g.WF) :
    extract g.render = some (buildRecord g.groups) := by
  have hs : (GLine.render g).toList = g.pre ++ ('-' :: g.renderTail) := rfl
  unfold extract
  rw [hs, scanDash_skip g.pre hwf.pre g.renderTail g.groups (tailMatch_render g hwf) false]
  rfl

/-- A concrete well-formed `GLine`: it renders to
` - Iter: 100/3 A1-B2 - Rand Eps: 0.10 lr: 0.001 Ret = 5.0 Last Crash = 2`
` t=0.05 SF = 1.0 Seen=1 Reward: 50.0` (one line). -/
def exampleGLine : GLine where
  pre := []
  w1 := [' ']
  w2 := [' ']
  step := ['1', '0', '0']
  s1 := []
  s2 := []
  episode := ['3']
  w3 := [' ']
  decision := ['A', '1', '-', 'B', '2']
  w4 := [' ']
  w5 := [' ']
  rp := litRand
  w6 := [' ']
  w7 := [' ']
  eps := ['0', '.', '1', '0']
  w8 := [' ']
  w9 := [' ']
  lr := ['0', '.', '0', '0', '1']
  w10 := [' ']
  s3 := [' ']
  s4 := [' ']
  ret := ['5', '.', '0']
  w11 := [' ']
  w12 := [' ']
  s5 := [' ']
  s6 := [' ']
  lastCrash := ['2']
  w13 := [' ']
  t := ['0', '.', '0', '5']
  w14 := [' ']
  s7 := [' ']
  s8 := [' ']
  sf := ['1', '.', '0']
  w15 := [' ']
  s9 := []
  seen := ['1']
  w16 := [' ']
  s10 := [' ']
  reward := ['5', '0', '.', '0']
  tailRest := []

theorem extract_matches_grammar_witness :
    extract exampleGLine.render = some (buildRecord exampleGLine.groups) :=
  extract_matches_grammar exampleGLine (by constructor <;> decide)

/-! ### Inversion lemmas: whatever a token parser accepts has the token's
shape and is split off the input exactly (claim C3) -/

theorem ws1_inv {cs rest : List Char} (h : ws1 cs = some rest) :
    ∃ w, cs = w ++ rest ∧ wfWS1 w = true := by
  cases cs with
  | nil => cases h
  | cons c cs' =>
    have h' : (if isWS c = true then some (cs'.dropWhile isWS) else none) = some rest := h
    by_cases hc : isWS c = true
    · rw [if_pos hc, Option.some_inj] at h'
      refine ⟨c :: cs'.takeWhile isWS, ?_, ?_⟩
      · rw [List.cons_append, ← h', List.takeWhile_append_dropWhile]
      · simp only [wfWS1, Bool.and_eq_true, List.all_eq_true]
        refine ⟨rfl, ?_⟩
        intro x hx
        rcases List.mem_cons.mp hx with hx | hx
        · subst hx; exact hc
        · exact List.mem_takeWhile_imp hx
    · rw [if_neg hc] at h'
      cases h'

theorem ws0_split (cs : List Char) :
    ∃ w, cs = w ++ ws0 cs ∧ wfWS0 w = true := by
  refine ⟨cs.takeWhile isWS, (List.takeWhile_append_dropWhile _ _).symm, ?_⟩
  simp only [wfWS0, List.all_eq_true]
  exact fun x hx => List.mem_takeWhile_imp hx

theorem lit_inv : ∀ (l cs rest : List Char), lit l cs = some rest → cs = l ++ rest := by
  intro l
  induction l with
  | nil =>
    intro cs rest h
    have h' : some cs = some rest := h
    rw [Option.some_inj] at h'
    rw [h', List.nil_append]
  | cons a l ih =>
    intro cs rest h
    cases cs with
    | nil => cases h
    | cons c cs' =>
      have h' : (if c = a then lit l cs' else none) = some rest := h
      by_cases hc : c = a
      · rw [if_pos hc] at h'
        rw [List.cons_append, hc, ih cs' rest h']
      · rw [if_neg hc] at h'
        cases h'

theorem digits1_inv {cs d rest : List Char} (h : digits1 cs = some (d, rest)) :
    cs = d ++ rest ∧ digTok d = true := by
  simp only [digits1] at h
  by_cases he : (cs.takeWhile isDigit).isEmpty = true
  · rw [if_pos he] at h
    cases h
  · rw [if_neg he] at h
    rw [Option.some_inj, Prod.mk.injEq] at h
    obtain ⟨h1, h2⟩ := h
    subst h1; subst h2
    refine ⟨(List.takeWhile_append_dropWhile _ _).symm, ?_⟩
    simp only [digTok, Bool.and_eq_true, List.all_eq_true]
    constructor
    · cases hb : (cs.takeWhile isDigit).isEmpty
      · rfl
      · exact absurd hb he
    · exact fun x hx => List.mem_takeWhile_imp hx

theorem signSplit_eq (cs : List Char) : cs = (signSplit cs).1 ++ (signSplit cs).2 := by
  cases cs with
  | nil => rfl
  | cons c rest =>
    by_cases hc : (decide (c = '+') || decide (c = '-')) = true
    · simp only [signSplit, if_pos hc]
      rfl
    · simp only [signSplit, if_neg hc]
      rfl

theorem signSplit_sign (cs : List Char) :
    (signSplit cs).1 = [] ∨ (signSplit cs).1 = ['+'] ∨ (signSplit cs).1 = ['-'] := by
  cases cs with
  | nil => exact Or.inl rfl
  | cons c rest =>
    by_cases hc : (decide (c = '+') || decide (c = '-')) = true
    · simp only [signSplit, if_pos hc]
      simp only [Bool.or_eq_true, decide_eq_true_eq] at hc
      rcases hc with rfl | rfl
      · exact Or.inr (Or.inl rfl)
      · exact Or.inr (Or.inr rfl)
    · refine Or.inl ?_
      simp only [signSplit, if_neg hc]

theorem decTokCore_digits {ds : List Char} (hne : ds ≠ [])
    (hdig : ∀ c ∈ ds, isDigit c = true) : decTokCore ds = true := by
  have h := takeWhile_split ds [] hdig (fun c hc => by cases hc)
  rw [List.append_nil] at h
  have h1 : ds.isEmpty = false := by
    cases hi : ds.isEmpty
    · rfl
    · exact absurd (List.isEmpty_iff.mp hi) hne
  simp [decTokCore, h.1, h.2, h1]

theorem decTokCore_frac {ds fs : List Char} (hdne : ds ≠ [])
    (hddig : ∀ c ∈ ds, isDigit c = true) (hfne : fs ≠ [])
    (hfdig : ∀ c ∈ fs, isDigit c = true) : decTokCore (ds ++ '.' :: fs) = true := by
  have h := takeWhile_split ds ('.' :: fs) hddig
    (fun c hc => by rw [List.head?_cons, Option.some_inj] at hc; subst hc; rfl)
  have h1 : ds.isEmpty = false := by
    cases hi : ds.isEmpty
    · rfl
    · exact absurd (List.isEmpty_iff.mp hi) hdne
  have h2 : fs.isEmpty = false := by
    cases hi : fs.isEmpty
    · rfl
    · exact absurd (List.isEmpty_iff.mp hi) hfne
  simp [decTokCore, h.1, h.2, h1, h2, List.all_eq_true]
  exact hfdig

theorem decTok_build {sgn u : List Char} (hs : sgn = [] ∨ sgn = ['+'] ∨ sgn = ['-'])
    (hu : decTokCore u = true) : decTok (sgn ++ u) = true := by
  have hne : u ≠ [] := by
    intro hnil
    subst hnil
    cases hu
  rcases hs with rfl | rfl | rfl
  · cases u with
    | nil => exact absurd rfl hne
    | cons c r =>
      cases hcd : isDigit c with
      | true =>
        rw [List.nil_append]
        show (if (decide (c = '+') || decide (c = '-')) = true then decTokCore r
          else decTokCore (c :: r)) = true
        rw [if_neg (by rw [digit_not_sign hcd]; exact Bool.false_ne_true)]
        exact hu
      | false =>
        exfalso
        simp only [decTokCore, Bool.and_eq_true] at hu
        obtain ⟨h1, -⟩ := hu
        simp [List.takeWhile_cons, hcd] at h1
  · show (if (decide ('+' = '+') || decide ('+' = '-')) = true then decTokCore u
      else decTokCore ('+' :: u)) = true
    rw [if_pos (by rfl)]
    exact hu
  · show (if (decide ('-' = '+') || decide ('-' = '-')) = true then decTokCore u
      else decTokCore ('-' :: u)) = true
    rw [if_pos (by rfl)]
    exact hu

theorem signedDec_inv {cs tok rest : List Char} (h : signedDec cs = some (tok, rest)) :
    cs = tok ++ rest ∧ decTok tok = true := by
  have hsgn := signSplit_sign cs
  have hcs := signSplit_eq cs
  unfold signedDec at h
  rcases hd : digits1 (signSplit cs).2 with _ | ⟨ds, cs2⟩
  · rw [hd] at h
    cases h
  · rw [hd] at h
    obtain ⟨hsplit2, hds⟩ := digits1_inv hd
    have hdsne : ds ≠ [] := digTok_ne_nil hds
    have hdsdig := digTok_all hds
    cases cs2 with
    | nil =>
      have h3 : some ((signSplit cs).1 ++ ds, ([] : List Char)) = some (tok, rest) := h
      rw [Option.some_inj, Prod.mk.injEq] at h3
      obtain ⟨h4, h5⟩ := h3
      subst h4; subst h5
      constructor
      · calc cs = (signSplit cs).1 ++ (signSplit cs).2 := hcs
          _ = (signSplit cs).1 ++ (ds ++ []) := by rw [hsplit2]
          _ = ((signSplit cs).1 ++ ds) ++ [] := by rw [List.append_assoc]
      · exact decTok_build hsgn (decTokCore_digits hdsne hdsdig)
    | cons c cs3 =>
      have h3 : (if c = '.' then
          (match digits1 cs3 with
          | none => some ((signSplit cs).1 ++ ds, c :: cs3)
          | some (fs, cs4) => some ((signSplit cs).1 ++ ds ++ '.' :: fs, cs4))
        else some ((signSplit cs).1 ++ ds, c :: cs3)) = some (tok, rest) := h
      by_cases hc : c = '.'
      · rw [if_pos hc] at h3
        subst hc
        rcases hf : digits1 cs3 with _ | ⟨fs, cs4⟩
        · rw [hf] at h3
          have h4 : some ((signSplit cs).1 ++ ds, '.' :: cs3) = some (tok, rest) := h3
          rw [Option.some_inj, Prod.mk.injEq] at h4
          obtain ⟨h5, h6⟩ := h4
          subst h5; subst h6
          constructor
          · calc cs = (signSplit cs).1 ++ (signSplit cs).2 := hcs
              _ = (signSplit cs).1 ++ (ds ++ '.' :: cs3) := by rw [hsplit2]
              _ = ((signSplit cs).1 ++ ds) ++ '.' :: cs3 := by rw [List.append_assoc]
          · exact decTok_build hsgn (decTokCore_digits hdsne hdsdig)
        · rw [hf] at h3
          have h4 : some ((signSplit cs).1 ++ ds ++ '.' :: fs, cs4) = some (tok, rest) := h3
          rw [Option.some_inj, Prod.mk.injEq] at h4
          obtain ⟨h5, h6⟩ := h4
          subst h5; subst h6
          obtain ⟨hc3, hfs⟩ := digits1_inv hf
          have hfne : fs ≠ [] := digTok_ne_nil hfs
          have hfdig := digTok_all hfs
          constructor
          · calc cs = (signSplit cs).1 ++ (signSplit cs).2 := hcs
              _ = (signSplit cs).1 ++ (ds ++ '.' :: cs3) := by rw [hsplit2]
              _ = (signSplit cs).1 ++ (ds ++ '.' :: (fs ++ cs4)) := by rw [hc3]
              _ = ((signSplit cs).1 ++ ds ++ '.' :: fs) ++ cs4 := by
                simp [List.append_assoc]
          · rw [List.append_assoc ((signSplit cs).1) ds ('.' :: fs)]
            exact decTok_build hsgn (decTokCore_frac hdsne hdsdig hfne hfdig)
      · rw [if_neg hc] at h3
        rw [Option.some_inj, Prod.mk.injEq] at h3
        obtain ⟨h5, h6⟩ := h3
        subst h5; subst h6
        constructor
        · calc cs = (signSplit cs).1 ++ (signSplit cs).2 := hcs
            _ = (signSplit cs).1 ++ (ds ++ c :: cs3) := by rw [hsplit2]
            _ = ((signSplit cs).1 ++ ds) ++ c :: cs3 := by rw [List.append_assoc]
        · exact decTok_build hsgn (decTokCore_digits hdsne hdsdig)

theorem decisionTok_inv {cs dec rest : List Char}
    (h : decisionTok cs = some (dec, rest)) :
    cs = dec ++ rest ∧ decisionWF dec = true := by
  cases cs with
  | nil => cases h
  | cons a t1 =>
    cases t1 with
    | nil => cases h
    | cons b t2 =>
      cases t2 with
      | nil => cases h
      | cons c t3 =>
        cases t3 with
        | nil => cases h
        | cons d t4 =>
          cases t4 with
          | nil => cases h
          | cons e t5 =>
            have h' : (if (isUpper a && isDigit b && decide (c = '-') && isUpper d &&
                isDigit e) = true then some (([a, b, c, d, e] : List Char), t5)
                else none) = some (dec, rest) := h
            by_cases hc : (isUpper a && isDigit b && decide (c = '-') && isUpper d &&
                isDigit e) = true
            · rw [if_pos hc, Option.some_inj, Prod.mk.injEq] at h'
              obtain ⟨h1, h2⟩ := h'
              subst h1; subst h2
              exact ⟨rfl, hc⟩
            · rw [if_neg hc] at h'
              cases h'

theorem seenTok_inv {cs sTok rest : List Char} (h : seenTok cs = some (sTok, rest)) :
    cs = sTok ++ rest ∧ seenWF sTok = true := by
  cases cs with
  | nil => cases h
  | cons c r =>
    have h' : (if (decide (c = '0') || decide (c = '1')) = true
        then some (([c] : List Char), r) else none) = some (sTok, rest) := h
    by_cases hc : (decide (c = '0') || decide (c = '1')) = true
    · rw [if_pos hc, Option.some_inj, Prod.mk.injEq] at h'
      obtain ⟨h1, h2⟩ := h'
      subst h1; subst h2
      refine ⟨rfl, ?_⟩
      simp only [Bool.or_eq_true, decide_eq_true_eq] at hc
      rcases hc with rfl | rfl <;> rfl
    · rw [if_neg hc] at h'
      cases h'

theorem randPred_inv {cs rest : List Char} (h : randPred cs = some rest) :
    ∃ rp, cs = rp ++ rest ∧ rpWF rp = true := by
  unfold randPred at h
  rcases hR : lit litRand cs with _ | r
  · rw [hR] at h
    have h' : lit litPred cs = some rest := h
    exact ⟨litPred, lit_inv litPred cs rest h', rfl⟩
  · rw [hR] at h
    have h' : some r = some rest := h
    rw [Option.some_inj] at h'
    subst h'
    exact ⟨litRand, lit_inv litRand cs r hR, rfl⟩

/-! ### Inversion of the keyed sub-parsers -/

theorem keyNum_inv {key cs tok rest : List Char}
    (h : keyNum key cs = some (tok, rest)) :
    ∃ w, cs = key ++ (w ++ (tok ++ rest)) ∧ wfWS1 w = true ∧ decTok tok = true := by
  unfold keyNum at h
  rcases h1 : lit key cs with _ | cs1
  · rw [h1] at h; cases h
  · rw [h1] at h
    simp only [Option.bind_eq_bind, Option.some_bind] at h
    rcases h2 : ws1 cs1 with _ | cs2
    · rw [h2] at h; cases h
    · rw [h2] at h
      simp only [Option.bind_eq_bind, Option.some_bind] at h
      obtain ⟨hc2, htok⟩ := signedDec_inv h
      obtain ⟨w, hc1, hw⟩ := ws1_inv h2
      exact ⟨w, by rw [lit_inv key cs cs1 h1, hc1, hc2], hw, htok⟩

theorem keyEqNum_inv {key cs tok rest : List Char}
    (h : keyEqNum key cs = some (tok, rest)) :
    ∃ s s', cs = key ++ (s ++ (['='] ++ (s' ++ (tok ++ rest)))) ∧
      wfWS0 s = true ∧ wfWS0 s' = true ∧ decTok tok = true := by
  unfold keyEqNum at h
  rcases h1 : lit key cs with _ | cs1
  · rw [h1] at h; cases h
  · rw [h1] at h
    simp only [Option.bind_eq_bind, Option.some_bind] at h
    rcases h2 : lit ['='] (ws0 cs1) with _ | cs2
    · rw [h2] at h; cases h
    · rw [h2] at h
      simp only [Option.bind_eq_bind, Option.some_bind] at h
      obtain ⟨hc2, htok⟩ := signedDec_inv h
      obtain ⟨s, hc1, hs⟩ := ws0_split cs1
      obtain ⟨s', hc2', hs'⟩ := ws0_split cs2
      refine ⟨s, s', ?_, hs, hs', htok⟩
      rw [lit_inv key cs cs1 h1, hc1, lit_inv ['='] (ws0 cs1) cs2 h2, hc2', hc2]

theorem keyEqDigits_inv {key cs tok rest : List Char}
    (h : keyEqDigits key cs = some (tok, rest)) :
    ∃ s s', cs = key ++ (s ++ (['='] ++ (s' ++ (tok ++ rest)))) ∧
      wfWS0 s = true ∧ wfWS0 s' = true ∧ digTok tok = true := by
  unfold keyEqDigits at h
  rcases h1 : lit key cs with _ | cs1
  · rw [h1] at h; cases h
  · rw [h1] at h
    simp only [Option.bind_eq_bind, Option.some_bind] at h
    rcases h2 : lit ['='] (ws0 cs1) with _ | cs2
    · rw [h2] at h; cases h
    · rw [h2] at h
      simp only [Option.bind_eq_bind, Option.some_bind] at h
      obtain ⟨hc2, htok⟩ := digits1_inv h
      obtain ⟨s, hc1, hs⟩ := ws0_split cs1
      obtain ⟨s', hc2', hs'⟩ := ws0_split cs2
      refine ⟨s, s', ?_, hs, hs', htok⟩
      rw [lit_inv key cs cs1 h1, hc1, lit_inv ['='] (ws0 cs1) cs2 h2, hc2', hc2]

theorem keySeen_inv {cs sTok rest : List Char}
    (h : keySeen cs = some (sTok, rest)) :
    ∃ s, cs = litSeenK ++ (s ++ (sTok ++ rest)) ∧
      wfWS0 s = true ∧ seenWF sTok = true := by
  unfold keySeen at h
  rcases h1 : lit litSeenK cs with _ | cs1
  · rw [h1] at h; cases h
  · rw [h1] at h
    simp only [Option.bind_eq_bind, Option.some_bind] at h
    obtain ⟨hc1, hseen⟩ := seenTok_inv h
    obtain ⟨s, hc0, hs⟩ := ws0_split cs1
    refine ⟨s, ?_, hs, hseen⟩
    rw [lit_inv litSeenK cs cs1 h1, hc0, hc1]

theorem keyReward_inv {cs tok rest : List Char}
    (h : keyReward cs = some (tok, rest)) :
    ∃ s, cs = litRewardK ++ (s ++ (tok ++ rest)) ∧
      wfWS0 s = true ∧ decTok tok = true := by
  unfold keyReward at h
  rcases h1 : lit litRewardK cs with _ | cs1
  · rw [h1] at h; cases h
  · rw [h1] at h
    simp only [Option.bind_eq_bind, Option.some_bind] at h
    obtain ⟨hc1, htok⟩ := signedDec_inv h
    obtain ⟨s, hc0, hs⟩ := ws0_split cs1
    refine ⟨s, ?_, hs, htok⟩
    rw [lit_inv litRewardK cs cs1 h1, hc0, hc1]

/-! ### Inversion of the stage parsers -/

theorem tmIter_inv {cs stepTok epTok rest : List Char}
    (h : tmIter cs = some (stepTok, epTok, rest)) :
    ∃ w1 w2 s1 s2 w3,
      cs = w1 ++ (litIter ++ (w2 ++ (stepTok ++ (s1 ++ (['/'] ++ (s2 ++
        (epTok ++ (w3 ++ rest)))))))) ∧
      wfWS1 w1 = true ∧ wfWS1 w2 = true ∧ digTok stepTok = true ∧
      wfWS0 s1 = true ∧ wfWS0 s2 = true ∧ digTok epTok = true ∧
      wfWS1 w3 = true := by
  unfold tmIter at h
  rcases h1 : ws1 cs with _ | cs1
  · rw [h1] at h; cases h
  · rw [h1] at h
    simp only [Option.bind_eq_bind, Option.some_bind] at h
    obtain ⟨w1, hcs, hw1⟩ := ws1_inv h1
    rcases h2 : lit litIter cs1 with _ | cs2
    · rw [h2] at h; cases h
    · rw [h2] at h
      simp only [Option.bind_eq_bind, Option.some_bind] at h
      have hcs1 := lit_inv litIter cs1 cs2 h2
      rcases h3 : ws1 cs2 with _ | cs3
      · rw [h3] at h; cases h
      · rw [h3] at h
        simp only [Option.bind_eq_bind, Option.some_bind] at h
        obtain ⟨w2, hcs2, hw2⟩ := ws1_inv h3
        rcases h4 : digits1 cs3 with _ | ⟨st, cs4⟩
        · rw [h4] at h; cases h
        · rw [h4] at h
          simp only [Option.bind_eq_bind, Option.some_bind] at h
          obtain ⟨hcs3, hstep⟩ := digits1_inv h4
          rcases h5 : lit ['/'] (ws0 cs4) with _ | cs5
          · rw [h5] at h; cases h
          · rw [h5] at h
            simp only [Option.bind_eq_bind, Option.some_bind] at h
            obtain ⟨s1t, hcs4, hs1⟩ := ws0_split cs4
            have hw : ws0 cs4 = ['/'] ++ cs5 := lit_inv ['/'] (ws0 cs4) cs5 h5
            rcases h6 : digits1 (ws0 cs5) with _ | ⟨ep, cs6⟩
            · rw [h6] at h; cases h
            · rw [h6] at h
              simp only [Option.bind_eq_bind, Option.some_bind] at h
              obtain ⟨s2t, hcs5, hs2⟩ := ws0_split cs5
              obtain ⟨hws5, hep⟩ := digits1_inv h6
              rcases h7 : ws1 cs6 with _ | cs7
              · rw [h7] at h; cases h
              · rw [h7] at h
                simp only [Option.bind_eq_bind, Option.some_bind] at h
                obtain ⟨w3t, hcs6, hw3⟩ := ws1_inv h7
                have h' : some (st, ep, cs7) = some (stepTok, epTok, rest) := h
                rw [Option.some_inj, Prod.mk.injEq, Prod.mk.injEq] at h'
                obtain ⟨hst, het, hrt⟩ := h'
                subst hst; subst het; subst hrt
                refine ⟨w1, w2, s1t, s2t, w3t, ?_, hw1, hw2, hstep, hs1, hs2, hep, hw3⟩
                rw [hcs, hcs1, hcs2, hcs3, hcs4, hw, hcs5, hws5, hcs6]

theorem tmDecision_inv {cs dec rest : List Char}
    (h : tmDecision cs = some (dec, rest)) :
    ∃ w4 w5 rp w6,
      cs = dec ++ (w4 ++ (['-'] ++ (w5 ++ (rp ++ (w6 ++ rest))))) ∧
      decisionWF dec = true ∧ wfWS1 w4 = true ∧ wfWS1 w5 = true ∧
      rpWF rp = true ∧ wfWS1 w6 = true := by
  unfold tmDecision at h
  rcases h1 : decisionTok cs with _ | ⟨dt, cs1⟩
  · rw [h1] at h; cases h
  · rw [h1] at h
    simp only [Option.bind_eq_bind, Option.some_bind] at h
    obtain ⟨hcs, hdec⟩ := decisionTok_inv h1
    rcases h2 : ws1 cs1 with _ | cs2
    · rw [h2] at h; cases h
    · rw [h2] at h
      simp only [Option.bind_eq_bind, Option.some_bind] at h
      obtain ⟨w4t, hcs1, hw4⟩ := ws1_inv h2
      rcases h3 : lit ['-'] cs2 with _ | cs3
      · rw [h3] at h; cases h
      · rw [h3] at h
        simp only [Option.bind_eq_bind, Option.some_bind] at h
        have hcs2 := lit_inv ['-'] cs2 cs3 h3
        rcases h4 : ws1 cs3 with _ | cs4
        · rw [h4] at h; cases h
        · rw [h4] at h
          simp only [Option.bind_eq_bind, Option.some_bind] at h
          obtain ⟨w5t, hcs3, hw5⟩ := ws1_inv h4
          rcases h5 : randPred cs4 with _ | cs5
          · rw [h5] at h; cases h
          · rw [h5] at h
            simp only [Option.bind_eq_bind, Option.some_bind] at h
            obtain ⟨rpt, hcs4, hrp⟩ := randPred_inv h5
            rcases h6 : ws1 cs5 with _ | cs6
            · rw [h6] at h; cases h
            · rw [h6] at h
              simp only [Option.bind_eq_bind, Option.some_bind] at h
              obtain ⟨w6t, hcs5, hw6⟩ := ws1_inv h6
              have h' : some (dt, cs6) = some (dec, rest) := h
              rw [Option.some_inj, Prod.mk.injEq] at h'
              obtain ⟨hd, hr⟩ := h'
              subst hd; subst hr
              refine ⟨w4t, w5t, rpt, w6t, ?_, hdec, hw4, hw5, hrp, hw6⟩
              rw [hcs, hcs1, hcs2, hcs3, hcs4, hcs5]

theorem tmFront_inv {cs stepTok epTok dec eps lrT ret rest : List Char}
    (h : tmFront cs = some ((stepTok, epTok, dec, eps, lrT, ret), rest)) :
    ∃ w1 w2 s1 s2 w3 w4 w5 rp w6 w7 w8 w9 w10 s3 s4 w11,
      cs = w1 ++ (litIter ++ (w2 ++ (stepTok ++ (s1 ++ (['/'] ++ (s2 ++ (epTok ++ (w3 ++
        (dec ++ (w4 ++ (['-'] ++ (w5 ++ (rp ++ (w6 ++
        (litEpsK ++ (w7 ++ (eps ++ (w8 ++
        (litLrK ++ (w9 ++ (lrT ++ (w10 ++
        (litRetK ++ (s3 ++ (['='] ++ (s4 ++ (ret ++ (w11 ++
          rest)))))))))))))))))))))))))))) ∧
      wfWS1 w1 = true ∧ wfWS1 w2 = true ∧ digTok stepTok = true ∧
      wfWS0 s1 = true ∧ wfWS0 s2 = true ∧ digTok epTok = true ∧ wfWS1 w3 = true ∧
      decisionWF dec = true ∧ wfWS1 w4 = true ∧ wfWS1 w5 = true ∧ rpWF rp = true ∧
      wfWS1 w6 = true ∧ wfWS1 w7 = true ∧ decTok eps = true ∧ wfWS1 w8 = true ∧
      wfWS1 w9 = true ∧ decTok lrT = true ∧ wfWS1 w10 = true ∧
      wfWS0 s3 = true ∧ wfWS0 s4 = true ∧ decTok ret = true ∧ wfWS1 w11 = true := by
  unfold tmFront at h
  rcases h1 : tmIter cs with _ | ⟨st, ep, cs1⟩
  · rw [h1] at h; cases h
  · rw [h1] at h
    simp only [Option.bind_eq_bind, Option.some_bind] at h
    obtain ⟨w1, w2, s1t, s2t, w3t, hdec1, hw1, hw2, hstep, hs1, hs2, hep, hw3⟩ :=
      tmIter_inv h1
    rcases h2 : tmDecision cs1 with _ | ⟨dt, cs2⟩
    · rw [h2] at h; cases h
    · rw [h2] at h
      simp only [Option.bind_eq_bind, Option.some_bind] at h
      obtain ⟨w4t, w5t, rpt, w6t, hdec2, hdt, hw4, hw5, hrp, hw6⟩ := tmDecision_inv h2
      rcases h3 : keyNum litEpsK cs2 with _ | ⟨epsT, cs3⟩
      · rw [h3] at h; cases h
      · rw [h3] at h
        simp only [Option.bind_eq_bind, Option.some_bind] at h
        obtain ⟨w7t, hdec3, hw7, heps⟩ := keyNum_inv h3
        rcases h4 : ws1 cs3 with _ | cs4
        · rw [h4] at h; cases h
        · rw [h4] at h
          simp only [Option.bind_eq_bind, Option.some_bind] at h
          obtain ⟨w8t, hdec4, hw8⟩ := ws1_inv h4
          rcases h5 : keyNum litLrK cs4 with _ | ⟨lrt, cs5⟩
          · rw [h5] at h; cases h
          · rw [h5] at h
            simp only [Option.bind_eq_bind, Option.some_bind] at h
            obtain ⟨w9t, hdec5, hw9, hlr⟩ := keyNum_inv h5
            rcases h6 : ws1 cs5 with _ | cs6
            · rw [h6] at h; cases h
            · rw [h6] at h
              simp only [Option.bind_eq_bind, Option.some_bind] at h
              obtain ⟨w10t, hdec6, hw10⟩ := ws1_inv h6
              rcases h7 : keyEqNum litRetK cs6 with _ | ⟨retT, cs7⟩
              · rw [h7] at h; cases h
              · rw [h7] at h
                simp only [Option.bind_eq_bind, Option.some_bind] at h
                obtain ⟨s3t, s4t, hdec7, hs3, hs4, hret⟩ := keyEqNum_inv h7
                rcases h8 : ws1 cs7 with _ | cs8
                · rw [h8] at h; cases h
                · rw [h8] at h
                  simp only [Option.bind_eq_bind, Option.some_bind] at h
                  obtain ⟨w11t, hdec8, hw11⟩ := ws1_inv h8
                  have h' : some ((st, ep, dt, epsT, lrt, retT), cs8) =
                      some ((stepTok, epTok, dec, eps, lrT, ret), rest) := h
                  simp only [Option.some_inj, Prod.mk.injEq] at h'
                  obtain ⟨⟨h11, h12, h13, h14, h15, h16⟩, h17⟩ := h'
                  subst h11; subst h12; subst h13; subst h14; subst h15
                  subst h16; subst h17
                  refine ⟨w1, w2, s1t, s2t, w3t, w4t, w5t, rpt, w6t, w7t, w8t, w9t,
                    w10t, s3t, s4t, w11t, ?_, hw1, hw2, hstep, hs1, hs2, hep, hw3,
                    hdt, hw4, hw5, hrp, hw6, hw7, heps, hw8, hw9, hlr, hw10,
                    hs3, hs4, hret, hw11⟩
                  rw [hdec1, hdec2, hdec3, hdec4, hdec5, hdec6, hdec7, hdec8]

theorem tmBack_inv {cs lastCrash tTok sf seen reward : List Char}
    (h : tmBack cs = some (lastCrash, tTok, sf, seen, reward)) :
    ∃ w12 s5 s6 w13 w14 s7 s8 w15 s9 w16 s10 tr,
      cs = litLastK ++ (w12 ++ (litCrashK ++ (s5 ++ (['='] ++ (s6 ++ (lastCrash ++ (w13 ++
        (litTK ++ (tTok ++ (w14 ++ (litSFK ++ (s7 ++ (['='] ++ (s8 ++ (sf ++ (w15 ++
        (litSeenK ++ (s9 ++ (seen ++ (w16 ++ (litRewardK ++ (s10 ++ (reward ++
          tr))))))))))))))))))))))) ∧
      wfWS1 w12 = true ∧ wfWS0 s5 = true ∧ wfWS0 s6 = true ∧ digTok lastCrash = true ∧
      wfWS1 w13 = true ∧ decTok tTok = true ∧ wfWS1 w14 = true ∧ wfWS0 s7 = true ∧
      wfWS0 s8 = true ∧ decTok sf = true ∧ wfWS1 w15 = true ∧ wfWS0 s9 = true ∧
      seenWF seen = true ∧ wfWS1 w16 = true ∧ wfWS0 s10 = true ∧ decTok reward = true := by
  unfold tmBack at h
  rcases h1 : lit litLastK cs with _ | cs1
  · rw [h1] at h; cases h
  · rw [h1] at h
    simp only [Option.bind_eq_bind, Option.some_bind] at h
    have hdec1 := lit_inv litLastK cs cs1 h1
    rcases h2 : ws1 cs1 with _ | cs2
    · rw [h2] at h; cases h
    · rw [h2] at h
      simp only [Option.bind_eq_bind, Option.some_bind] at h
      obtain ⟨w12t, hdec2, hw12⟩ := ws1_inv h2
      rcases h3 : keyEqDigits litCrashK cs2 with _ | ⟨lcT, cs3⟩
      · rw [h3] at h; cases h
      · rw [h3] at h
        simp only [Option.bind_eq_bind, Option.some_bind] at h
        obtain ⟨s5t, s6t, hdec3, hs5, hs6, hlc⟩ := keyEqDigits_inv h3
        rcases h4 : ws1 cs3 with _ | cs4
        · rw [h4] at h; cases h
        · rw [h4] at h
          simp only [Option.bind_eq_bind, Option.some_bind] at h
          obtain ⟨w13t, hdec4, hw13⟩ := ws1_inv h4
          rcases h5 : lit litTK cs4 with _ | cs5
          · rw [h5] at h; cases h
          · rw [h5] at h
            simp only [Option.bind_eq_bind, Option.some_bind] at h
            have hdec5 := lit_inv litTK cs4 cs5 h5
            rcases h6 : signedDec cs5 with _ | ⟨tT, cs6⟩
            · rw [h6] at h; cases h
            · rw [h6] at h
              simp only [Option.bind_eq_bind, Option.some_bind] at h
              obtain ⟨hdec6, ht⟩ := signedDec_inv h6
              rcases h7 : ws1 cs6 with _ | cs7
              · rw [h7] at h; cases h
              · rw [h7] at h
                simp only [Option.bind_eq_bind, Option.some_bind] at h
                obtain ⟨w14t, hdec7, hw14⟩ := ws1_inv h7
                rcases h8 : keyEqNum litSFK cs7 with _ | ⟨sfT, cs8⟩
                · rw [h8] at h; cases h
                · rw [h8] at h
                  simp only [Option.bind_eq_bind, Option.some_bind] at h
                  obtain ⟨s7t, s8t, hdec8, hs7, hs8, hsf⟩ := keyEqNum_inv h8
                  rcases h9 : ws1 cs8 with _ | cs9
                  · rw [h9] at h; cases h
                  · rw [h9] at h
                    simp only [Option.bind_eq_bind, Option.some_bind] at h
                    obtain ⟨w15t, hdec9, hw15⟩ := ws1_inv h9
                    rcases h10 : keySeen cs9 with _ | ⟨seenT, cs10⟩
                    · rw [h10] at h; cases h
                    · rw [h10] at h
                      simp only [Option.bind_eq_bind, Option.some_bind] at h
                      obtain ⟨s9t, hdec10, hs9, hseen⟩ := keySeen_inv h10
                      rcases h11 : ws1 cs10 with _ | cs11
                      · rw [h11] at h; cases h
                      · rw [h11] at h
                        simp only [Option.bind_eq_bind, Option.some_bind] at h
                        obtain ⟨w16t, hdec11, hw16⟩ := ws1_inv h11
                        rcases h12 : keyReward cs11 with _ | ⟨rwT, trT⟩
                        · rw [h12] at h; cases h
                        · rw [h12] at h
                          simp only [Option.bind_eq_bind, Option.some_bind] at h
                          obtain ⟨s10t, hdec12, hs10, hrw⟩ := keyReward_inv h12
                          have h' : some (lcT, tT, sfT, seenT, rwT) =
                              some (lastCrash, tTok, sf, seen, reward) := h
                          simp only [Option.some_inj, Prod.mk.injEq] at h'
                          obtain ⟨h21, h22, h23, h24, h25⟩ := h'
                          subst h21; subst h22; subst h23; subst h24; subst h25
                          refine ⟨w12t, s5t, s6t, w13t, w14t, s7t, s8t, w15t, s9t,
                            w16t, s10t, trT, ?_, hw12, hs5, hs6, hlc, hw13, ht, hw14,
                            hs7, hs8, hsf, hw15, hs9, hseen, hw16, hs10, hrw⟩
                          rw [hdec1, hdec2, hdec3, hdec4, hdec5, hdec6, hdec7, hdec8,
                            hdec9, hdec10, hdec11, hdec12]

/-- The token-shape part of `GLine.WF`: every captured or skipped token has
the shape its grammar position demands.  Nothing is asked of the skipped
prefix or of the ignored tail of the line, so this is exactly what holds of
any line the pattern accepts. -/
structure GLine.Shape (g : GLine) : Prop where
  w1 : wfWS1 g.w1 = true
  w2 : wfWS1 g.w2 = true
  step : digTok g.step = true
  s1 : wfWS0 g.s1 = true
  s2 : wfWS0 g.s2 = true
  episode : digTok g.episode = true
  w3 : wfWS1 g.w3 = true
  decision : decisionWF g.decision = true
  w4 : wfWS1 g.w4 = true
  w5 : wfWS1 g.w5 = true
  rp : rpWF g.rp = true
  w6 : wfWS1 g.w6 = true
  w7 : wfWS1 g.w7 = true
  eps : decTok g.eps = true
  w8 : wfWS1 g.w8 = true
  w9 : wfWS1 g.w9 = true
  lr : decTok g.lr = true
  w10 : wfWS1 g.w10 = true
  s3 : wfWS0 g.s3 = true
  s4 : wfWS0 g.s4 = true
  ret : decTok g.ret = true
  w11 : wfWS1 g.w11 = true
  w12 : wfWS1 g.w12 = true
  s5 : wfWS0 g.s5 = true
  s6 : wfWS0 g.s6 = true
  lastCrash : digTok g.lastCrash = true
  w13 : wfWS1 g.w13 = true
  t : decTok g.t = true
  w14 : wfWS1 g.w14 = true
  s7 : wfWS0 g.s7 = true
  s8 : wfWS0 g.s8 = true
  sf : decTok g.sf = true
  w15 : wfWS1 g.w15 = true
  s9 : wfWS0 g.s9 = true
  seen : seenWF g.seen = true
  w16 : wfWS1 g.w16 = true
  s10 : wfWS0 g.s10 = true
  reward : decTok g.reward = true

theorem tailMatch_inv {tl : List Char} {gs : Groups} (h : tailMatch tl = some gs) :
    ∃ g : GLine, g.Shape ∧ g.renderTail = tl ∧ g.groups = gs := by
  unfold tailMatch at h
  rcases h1 : tmFront tl with _ | ⟨⟨st, ep, dec, eps, lrT, ret⟩, cs1⟩
  · rw [h1] at h; cases h
  · rw [h1] at h
    simp only [Option.bind_eq_bind, Option.some_bind] at h
    obtain ⟨w1, w2, s1, s2, w3, w4, w5, rp, w6, w7, w8, w9, w10, s3, s4, w11,
      hdF, hw1, hw2, hstep, hs1, hs2, hep, hw3, hdt, hw4, hw5, hrp, hw6, hw7,
      heps, hw8, hw9, hlr, hw10, hs3, hs4, hret, hw11⟩ := tmFront_inv h1
    rcases h2 : tmBack cs1 with _ | ⟨lc, tT, sfT, seenT, rewT⟩
    · rw [h2] at h; cases h
    · rw [h2] at h
      simp only [Option.bind_eq_bind, Option.some_bind] at h
      obtain ⟨w12, s5, s6, w13, w14, s7, s8, w15, s9, w16, s10, tr,
        hdB, hw12, hs5, hs6, hlc, hw13, ht, hw14, hs7, hs8, hsf, hw15, hs9,
        hseen, hw16, hs10, hrew⟩ := tmBack_inv h2
      have h' : some (Groups.mk st ep dec eps lrT ret lc tT sfT seenT rewT) =
          some gs := h
      rw [Option.some_inj] at h'
      refine ⟨GLine.mk [] w1 w2 st s1 s2 ep w3 dec w4 w5 rp w6 w7 eps w8 w9 lrT w10
        s3 s4 ret w11 w12 s5 s6 lc w13 tT w14 s7 s8 sfT w15 s9 seenT w16 s10 rewT tr,
        ⟨hw1, hw2, hstep, hs1, hs2, hep, hw3, hdt, hw4, hw5, hrp, hw6, hw7, heps,
          hw8, hw9, hlr, hw10, hs3, hs4, hret, hw11, hw12, hs5, hs6, hlc, hw13, ht,
          hw14, hs7, hs8, hsf, hw15, hs9, hseen, hw16, hs10, hrew⟩, ?_, h'⟩
      simp only [GLine.renderTail, GLine.restDecision, GLine.restEps, GLine.restLr,
        GLine.restRet, GLine.restLast, GLine.restCrash, GLine.restT, GLine.restSF,
        GLine.restSeen, GLine.restReward]
      rw [hdF, hdB]

/-- `^\s*.*?-` : whatever the scan accepts splits the line at a `-` whose
tail the rest of the pattern matches. -/
theorem scanDash_inv : ∀ (cs : List Char) (b : Bool) (gs : Groups),
    scanDash cs b = some gs →
    ∃ pre tl, cs = pre ++ ('-' :: tl) ∧ tailMatch tl = some gs := by
  intro cs
  induction cs with
  | nil => intro b gs h; cases h
  | cons c rest ih =>
    intro b gs h
    unfold scanDash at h
    by_cases hc : c = '-'
    · rw [if_pos hc] at h
      rcases ht : tailMatch rest with _ | g'
      · rw [ht] at h
        have h' : scanDash rest true = some gs := h
        obtain ⟨pre, tl, hdec, htm⟩ := ih true gs h'
        exact ⟨c :: pre, tl, by rw [hdec, List.cons_append], htm⟩
      · rw [ht] at h
        have h' : some g' = some gs := h
        rw [Option.some_inj] at h'
        subst h'
        exact ⟨[], rest, by rw [hc, List.nil_append], ht⟩
    · rw [if_neg hc] at h
      by_cases hnb : (decide (c = '\n') && b) = true
      · rw [if_pos hnb] at h
        cases h
      · rw [if_neg hnb] at h
        obtain ⟨pre, tl, hdec, htm⟩ := ih _ gs h
        exact ⟨c :: pre, tl, by rw [hdec, List.cons_append], htm⟩

/-- **C3**: `extract` is a total function of the line text into
`Option LogRecord`, and it accepts only lines of the grammar: whenever it
returns a record, the line decomposes as prefix, dash and the full token
sequence of the pattern with every token of the demanded shape, and the
record is built from exactly those tokens.  Contrapositively, any line that
violates a token of the grammar yields `none` — no record and, the function
being total, no exception. -/
theorem extract_sound (s : String) (r : LogRecord) (h : extract s = some r) :
    ∃ g : GLine, g.Shape ∧ g.render = s ∧ r = buildRecord g.groups := by
  unfold extract at h
  rcases hsd : scanDash s.toList false with _ | gs
  · rw [hsd] at h
    cases h
  · rw [hsd] at h
    have hr : r = buildRecord gs := by
      have h' : some (buildRecord gs) = some r := h
      rw [Option.some_inj] at h'
      exact h'.symm
    obtain ⟨pre, tl, hdec, htm⟩ := scanDash_inv _ _ _ hsd
    obtain ⟨g, hshape, hrt, hgroups⟩ := tailMatch_inv htm
    obtain ⟨a1, a2, a3, a4, a5, a6, a7, a8, a9, a10, a11, a12, a13, a14, a15, a16,
      a17, a18, a19, a20, a21, a22, a23, a24, a25, a26, a27, a28, a29, a30, a31,
      a32, a33, a34, a35, a36, a37, a38⟩ := hshape
    refine ⟨{ g with pre := pre }, ⟨a1, a2, a3, a4, a5, a6, a7, a8, a9, a10, a11,
      a12, a13, a14, a15, a16, a17, a18, a19, a20, a21, a22, a23, a24, a25, a26,
      a27, a28, a29, a30, a31, a32, a33, a34, a35, a36, a37, a38⟩, ?_, ?_⟩
    · show String.mk (pre ++ ('-' :: g.renderTail)) = s
      rw [hrt, ← hdec]
      rfl
    · show r = buildRecord g.groups
      rw [hgroups]
      exact hr

theorem extract_sound_witness :
    ∃ g : GLine, g.Shape ∧ g.render = exampleGLine.render ∧
      buildRecord exampleGLine.groups = buildRecord g.groups :=
  extract_sound exampleGLine.render (buildRecord exampleGLine.groups) rfl

end DroneLogs
